import Mathlib

/-!
Shallow embedding of the `aresadb` distributed-storage layer
(`src/tools/aresadb/src/distributed/`): the Bloom filter (`bloom.rs`),
the write-ahead log (`wal.rs`), the consistent-hash ring and shard
manager (`shard.rs`) and the Raft-style replica set (`replication.rs`),
together with theorems settling the specification claims about them.

Machine integers are modelled as `Nat` with explicit `% 2 ^ w` where the
Rust code relies on wrapping, and operations that can panic in Rust
(index out of bounds, remainder by zero) return `Option`.
External library functions (the SipHash / xxHash hash functions, bincode
serialization) are passed in as explicit function parameters, since the
code under verification only ever composes them.
-/

namespace Aresa

/-- Wrapping 64-bit value, as produced by Rust `u64` arithmetic. -/
def wrap64 (n : Nat) : Nat := n % 2 ^ 64

/-- Little-endian byte encoding of `n` on `k` bytes, as produced by
Rust `to_le_bytes` (low bytes first; high bits beyond `8 * k` are dropped,
matching an `as` cast). -/
def leBytes : Nat → Nat → List Nat
  | 0, _ => []
  | k + 1, n => n % 256 :: leBytes k (n / 256)

/-- Little-endian byte decoding, as in Rust `from_le_bytes`; each list
element is a byte and is read modulo 256. -/
def leDecode : List Nat → Nat
  | [] => 0
  | b :: rest => b % 256 + 256 * leDecode rest

/-! Section: Bloom filter (`bloom.rs`)

`BloomFilter` stores a bit array as a list of 64-bit words.  The SipHash
pair `hash_pair` is abstracted as a function parameter `hp` from the item
bytes to the two 64-bit seeds `(h1, h2)`. -/

structure BloomFilter where
  bits : List Nat
  num_bits : Nat
  num_hashes : Nat
  count : Nat
deriving DecidableEq, Repr

namespace BloomFilter

/-- Well-formedness enjoyed by every filter the Rust constructors build:
the word vector has exactly `ceil(num_bits / 64)` entries and each word
fits in a `u64`. -/
def Wf (f : BloomFilter) : Prop :=
  f.bits.length = (f.num_bits + 63) / 64 ∧ ∀ w ∈ f.bits, w < 2 ^ 64

/-- Rust `BloomFilter::with_params`: explicit parameters, zero-initialised words. -/
def withParams (num_bits num_hashes : Nat) : BloomFilter :=
  { bits := List.replicate ((num_bits + 63) / 64) 0
    num_bits := num_bits
    num_hashes := num_hashes
    count := 0 }

/-- Rust `BloomFilter::get_bit_index`: double hashing
`(h1 + i * h2) mod num_bits` with wrapping `u64` arithmetic; `none`
models the Rust panic on remainder by zero when `num_bits = 0`. -/
def getBitIndex (f : BloomFilter) (h1 h2 i : Nat) : Option Nat :=
  if f.num_bits = 0 then none
  else some (wrap64 (h1 + wrap64 (i * h2)) % f.num_bits)

/-- Rust `BloomFilter::set_bit`: `bits[idx / 64] |= 1 << (idx % 64)`; `none`
models the Rust panic on an out-of-bounds word index. -/
def setBit (f : BloomFilter) (idx : Nat) : Option BloomFilter :=
  match f.bits[idx / 64]? with
  | none => none
  | some w => some { f with bits := f.bits.set (idx / 64) (w ||| 2 ^ (idx % 64)) }

/-- Rust `BloomFilter::get_bit`: `(bits[idx / 64] >> (idx % 64)) & 1 == 1`. -/
def getBit (f : BloomFilter) (idx : Nat) : Option Bool :=
  match f.bits[idx / 64]? with
  | none => none
  | some w => some (w.testBit (idx % 64))

/-- One probe-setting step of `BloomFilter::insert`. -/
def insertStep (h1 h2 : Nat) (g : BloomFilter) (i : Nat) : Option BloomFilter := do
  let idx ← g.getBitIndex h1 h2 i
  g.setBit idx

/-- Rust `BloomFilter::insert`: set the bit for each `i in 0..num_hashes`,
then bump the insertion counter. -/
def insertItem (hp : List Nat → Nat × Nat) (f : BloomFilter) (item : List Nat) :
    Option BloomFilter := do
  let f' ← (List.range f.num_hashes).foldlM (insertStep (hp item).1 (hp item).2) f
  pure { f' with count := f'.count + 1 }

/-- The probe loop of `BloomFilter::may_contain`, short-circuiting on the
first clear bit exactly as the Rust loop returns early. -/
def mayContainAux (f : BloomFilter) (h1 h2 : Nat) : List Nat → Option Bool
  | [] => some true
  | i :: rest => do
      let idx ← f.getBitIndex h1 h2 i
      let b ← f.getBit idx
      if b then mayContainAux f h1 h2 rest else pure false

/-- Rust `BloomFilter::may_contain`. -/
def mayContainItem (hp : List Nat → Nat × Nat) (f : BloomFilter) (item : List Nat) :
    Option Bool :=
  mayContainAux f (hp item).1 (hp item).2 (List.range f.num_hashes)

/-- Rust `BloomFilter::to_bytes`:
`[num_bits as u32][num_hashes][count as u32][words as u64 LE]`. -/
def toBytesB (f : BloomFilter) : List Nat :=
  leBytes 4 f.num_bits ++ leBytes 4 f.num_hashes ++ leBytes 4 f.count ++
    (f.bits.map (leBytes 8)).flatten

/-- Rust `BloomFilter::from_bytes`: rejects buffers shorter than the 12-byte
header or shorter than the word region the decoded `num_bits` demands. -/
def fromBytesB (data : List Nat) : Option BloomFilter :=
  if data.length < 12 then none
  else
    let nb := leDecode (data.take 4)
    let nh := leDecode ((data.drop 4).take 4)
    let cnt := leDecode ((data.drop 8).take 4)
    let nw := (nb + 63) / 64
    if data.length < 12 + nw * 8 then none
    else
      some { bits := (List.range nw).map (fun i => leDecode ((data.drop (12 + i * 8)).take 8))
             num_bits := nb
             num_hashes := nh
             count := cnt }

/-- Inserting every item of a list in sequence, as a caller of
`BloomFilter::insert` would. -/
def insertAll (hp : List Nat → Nat × Nat) (f : BloomFilter) (items : List (List Nat)) :
    Option BloomFilter :=
  items.foldlM (fun g x => insertItem hp g x) f

/-- The concrete probe position `insert` and `may_contain` both compute
for seed pair `(h1, h2)` and probe number `i`. -/
def probePos (nb h1 h2 i : Nat) : Nat :=
  wrap64 (h1 + wrap64 (i * h2)) % nb

end BloomFilter

/-! Section: Write-ahead log (`wal.rs`)

Records are `[len: u32 LE][crc32(payload): u32 LE][payload]` where the
payload is the bincode serialization of the `WalEntry` struct.  The bincode
`serialize`/`deserialize` pair is abstracted as explicit `ser`/`deser`
function parameters; CRC32 is modelled bit-for-bit. -/

/-- One halving round of the bitwise CRC32 with reflected polynomial
`0xEDB88320`. -/
def crc32Round (x : Nat) : Nat :=
  if x % 2 = 1 then (x / 2) ^^^ 0xEDB88320 else x / 2

/-- CRC32 state update for one input byte. -/
def crc32Byte (c b : Nat) : Nat := crc32Round^[8] (c ^^^ (b % 256))

/-- The IEEE CRC32 checksum computed by `crc32fast::Hasher` over a byte
sequence. -/
def crc32 (data : List Nat) : Nat := (data.foldl crc32Byte 0xFFFFFFFF) ^^^ 0xFFFFFFFF

/-- Rust `WalEntryType`: the nine operation tags. -/
inductive WalEntryType
  | insertNode
  | updateNode
  | deleteNode
  | insertEdge
  | deleteEdge
  | txBegin
  | txCommit
  | txRollback
  | checkpoint
deriving DecidableEq, Repr

/-- Rust `WalEntry`: log sequence number, timestamp, operation tag, optional
transaction id, raw payload bytes. -/
structure WalEntry where
  lsn : Nat
  timestamp : Nat
  entry_type : WalEntryType
  tx_id : Option Nat
  data : List Nat
deriving DecidableEq, Repr

/-- Rust `WalEntry::to_bytes`: `[len][crc32 of payload][payload]`, both header
fields 4-byte little-endian. -/
def entryToBytes (ser : WalEntry → List Nat) (e : WalEntry) : List Nat :=
  leBytes 4 (ser e).length ++ leBytes 4 (crc32 (ser e)) ++ ser e

/-- Rust `WalEntry::from_bytes`: header too short, truncated record, checksum
mismatch and deserialize failure all yield `none` (the Rust `bail!`);
success returns the entry and the number of bytes consumed. -/
def entryFromBytes (deser : List Nat → Option WalEntry) (data : List Nat) :
    Option (WalEntry × Nat) :=
  if data.length < 8 then none
  else
    let len := leDecode (data.take 4)
    let stored := leDecode ((data.drop 4).take 4)
    if data.length < 8 + len then none
    else
      let payload := (data.drop 8).take len
      if stored ≠ crc32 payload then none
      else
        match deser payload with
        | some e => some (e, 8 + len)
        | none => none

/-- Rust `WriteAheadLog::read_all` on the raw file bytes: parse records from
offset 0, stopping at the first record that fails to parse. -/
def readAll (deser : List Nat → Option WalEntry) (data : List Nat) : List WalEntry :=
  match h : entryFromBytes deser data with
  | none => []
  | some (e, n) => e :: readAll deser (data.drop n)
termination_by data.length
decreasing_by
  simp only [List.length_drop]
  simp only [entryFromBytes] at h
  split_ifs at h with h1 h2 h3
  cases hm : deser ((data.drop 8).take (leDecode (data.take 4))) with
  | none =>
      rw [hm] at h
      simp at h
  | some e' =>
      rw [hm] at h
      simp only [Option.some.injEq, Prod.mk.injEq] at h
      omega

/-- Rust `WriteAheadLog::find_last_lsn`: the same forward scan as `read_all`,
remembering the LSN of the last successfully parsed entry. -/
def findLastLsn (deser : List Nat → Option WalEntry) (data : List Nat) : Option Nat :=
  ((readAll deser data).map WalEntry.lsn).getLast?

/-- The persistent state of one `WriteAheadLog`: the bytes of its file and
the value of its atomic LSN counter. -/
structure WalState where
  fileBytes : List Nat
  nextLsn : Nat
deriving DecidableEq, Repr

/-- Rust `WriteAheadLog::open_with_options` on a file holding `bytes`:
recover the last LSN by scanning and set the counter to `last + 1`
(1 when the file is empty or no entry parses). -/
def walOpen (deser : List Nat → Option WalEntry) (bytes : List Nat) : WalState :=
  { fileBytes := bytes, nextLsn := (findLastLsn deser bytes).getD 0 + 1 }

/-- Rust `WriteAheadLog::append`: take the next LSN, build the entry with the
current timestamp, write its framed bytes, return the assigned LSN. -/
def walAppend (ser : WalEntry → List Nat) (s : WalState) (t : WalEntryType) (ts : Nat)
    (d : List Nat) : WalState × Nat :=
  let e : WalEntry := { lsn := s.nextLsn, timestamp := ts, entry_type := t, tx_id := none,
                        data := d }
  ({ fileBytes := s.fileBytes ++ entryToBytes ser e, nextLsn := s.nextLsn + 1 }, s.nextLsn)

/-- A sequence of `append` calls, collecting the assigned LSNs. -/
def walAppendAll (ser : WalEntry → List Nat) (s : WalState) :
    List (WalEntryType × Nat × List Nat) → WalState × List Nat
  | [] => (s, [])
  | (t, ts, d) :: rest =>
      let p := walAppend ser s t ts d
      let q := walAppendAll ser p.1 rest
      (q.1, p.2 :: q.2)

/-- The entries a run of `append` calls starting at LSN `lsn0` constructs. -/
def walEntriesFrom (lsn0 : Nat) : List (WalEntryType × Nat × List Nat) → List WalEntry
  | [] => []
  | (t, ts, d) :: rest =>
      { lsn := lsn0, timestamp := ts, entry_type := t, tx_id := none, data := d } ::
        walEntriesFrom (lsn0 + 1) rest

/-- Tag byte for each entry type, used by the concrete witness codec. -/
def walTypeTag : WalEntryType → Nat
  | .insertNode => 0
  | .updateNode => 1
  | .deleteNode => 2
  | .insertEdge => 3
  | .deleteEdge => 4
  | .txBegin => 5
  | .txCommit => 6
  | .txRollback => 7
  | .checkpoint => 8

/-- A concrete injective serializer for `WalEntry`, standing in for the
abstract bincode `serialize` parameter when witnesses need one. -/
def serSimple (e : WalEntry) : List Nat :=
  leBytes 8 e.lsn ++ leBytes 8 e.timestamp ++ [walTypeTag e.entry_type] ++
    (match e.tx_id with
     | none => [0]
     | some t => 1 :: leBytes 8 t) ++
    leBytes 8 e.data.length ++ e.data

/-- A concrete deserializer inverting `serSimple` on a finite table of
entries, standing in for the abstract bincode `deserialize` parameter. -/
def tableDeser (tbl : List WalEntry) (bs : List Nat) : Option WalEntry :=
  tbl.find? (fun e => serSimple e == bs)

/-! Section: Replication (`replication.rs`) -/

/-- Rust `ReplicaState`. -/
inductive ReplicaState
  | follower
  | candidate
  | leader
deriving DecidableEq, Repr

/-- Rust `ReplicationCommand`. -/
inductive ReplicationCommand
  | nop
  | insertNodeCmd (d : List Nat)
  | updateNodeCmd (d : List Nat)
  | deleteNodeCmd (d : List Nat)
  | insertEdgeCmd (d : List Nat)
  | deleteEdgeCmd (d : List Nat)
deriving DecidableEq, Repr

/-- Rust `LogEntry`. -/
structure LogEntry where
  term : Nat
  index : Nat
  command : ReplicationCommand
deriving DecidableEq, Repr

/-- Rust `ConsensusMessage`. -/
inductive ConsensusMessage
  | requestVote (term : Nat) (candidate_id : String) (last_log_index : Nat)
      (last_log_term : Nat)
  | voteResponse (term : Nat) (vote_granted : Bool)
  | appendEntries (term : Nat) (leader_id : String) (prev_log_index : Nat)
      (prev_log_term : Nat) (entries : List LogEntry) (leader_commit : Nat)
  | appendResponse (term : Nat) (success : Bool) (match_index : Nat)
deriving DecidableEq, Repr

/-- The full state of one `ReplicaSet`, including its configuration
(`node_id`, `peers`) and the follower heartbeat clock (a Rust `Instant`,
modelled as an abstract tick count supplied to each operation). -/
structure RState where
  node_id : String
  peers : List String
  state : ReplicaState
  current_term : Nat
  voted_for : Option String
  log : List LogEntry
  commit_index : Nat
  last_applied : Nat
  next_index : List (String × Nat)
  match_index : List (String × Nat)
  last_heartbeat : Nat
  leader_id : Option String
deriving DecidableEq, Repr

/-- Rust `ReplicaSet::new`. -/
def RState.init (node_id : String) (peers : List String) (now : Nat) : RState :=
  { node_id := node_id, peers := peers, state := .follower, current_term := 0,
    voted_for := none, log := [], commit_index := 0, last_applied := 0,
    next_index := [], match_index := [], last_heartbeat := now, leader_id := none }

/-- Rust `HashMap::insert` on the peer maps, as an association-list update. -/
def assocInsert (m : List (String × Nat)) (k : String) (v : Nat) : List (String × Nat) :=
  if m.any (fun p => p.1 == k) then m.map (fun p => if p.1 == k then (k, v) else p)
  else m ++ [(k, v)]

/-- Rust `ReplicaSet::handle_request_vote`. -/
def handleRequestVote (s : RState) (term : Nat) (cand : String) (lli llt : Nat)
    (now : Nat) : RState × ConsensusMessage :=
  let s1 := if term > s.current_term then
      { s with current_term := term, voted_for := none, state := .follower }
    else s
  if term < s1.current_term then
    (s1, .voteResponse s1.current_term false)
  else if s1.voted_for.isSome ∧ s1.voted_for ≠ some cand then
    (s1, .voteResponse s1.current_term false)
  else
    let ourLastTerm := ((s1.log.getLast?).map LogEntry.term).getD 0
    let ourLastIndex := s1.log.length
    if llt > ourLastTerm ∨ (llt = ourLastTerm ∧ lli ≥ ourLastIndex) then
      ({ s1 with voted_for := some cand, last_heartbeat := now },
        .voteResponse s1.current_term true)
    else
      (s1, .voteResponse s1.current_term false)

/-- The append-new-entries and commit-advance phase of
`handle_append_entries`, reached when the consistency check passes. -/
def appendPhase (s : RState) (entries : List LogEntry) (lc : Nat) :
    RState × ConsensusMessage :=
  let newLog := entries.foldl (fun lg e => if e.index > lg.length then lg ++ [e] else lg) s.log
  let s1 := { s with log := newLog }
  let s2 := if lc > s1.commit_index then { s1 with commit_index := min lc newLog.length }
    else s1
  (s2, .appendResponse s2.current_term true newLog.length)

/-- The log-consistency check and the phases after it in
`handle_append_entries`, operating on the state that already adopted the
term and recorded the leader. -/
def handleAppendEntriesRest (s2 : RState) (pli plt : Nat) (entries : List LogEntry)
    (lc : Nat) : RState × ConsensusMessage :=
  if 0 < pli then
    match s2.log[pli - 1]? with
    | some entry =>
        if entry.term ≠ plt then
          let s3 := { s2 with log := s2.log.take (pli - 1) }
          (s3, .appendResponse s3.current_term false s3.log.length)
        else
          appendPhase s2 entries lc
    | none => (s2, .appendResponse s2.current_term false s2.log.length)
  else
    appendPhase s2 entries lc

/-- Rust `ReplicaSet::handle_append_entries`. -/
def handleAppendEntries (s : RState) (term : Nat) (ldr : String) (pli plt : Nat)
    (entries : List LogEntry) (lc : Nat) (now : Nat) : RState × ConsensusMessage :=
  if term < s.current_term then
    (s, .appendResponse s.current_term false 0)
  else
    let s1 := if term > s.current_term then { s with current_term := term, voted_for := none }
      else s
    handleAppendEntriesRest
      { s1 with state := .follower, leader_id := some ldr, last_heartbeat := now }
      pli plt entries lc

/-- Rust `ReplicaSet::handle_vote_response` (the vote-counting branch mutates
nothing). -/
def handleVoteResponse (s : RState) (term : Nat) (granted : Bool) : RState :=
  if term > s.current_term then
    { s with current_term := term, voted_for := none, state := .follower }
  else s

/-- Rust `ReplicaSet::handle_append_response` (the leader bookkeeping branch
mutates nothing). -/
def handleAppendResponse (s : RState) (term : Nat) (success : Bool) (mi : Nat) : RState :=
  if term > s.current_term then
    { s with current_term := term, voted_for := none, state := .follower }
  else s

/-- Rust `ReplicaSet::process_message`. -/
def processMessage (s : RState) (m : ConsensusMessage) (now : Nat) :
    RState × Option ConsensusMessage :=
  match m with
  | .requestVote t c lli llt =>
      let p := handleRequestVote s t c lli llt now
      (p.1, some p.2)
  | .appendEntries t l pli plt es lc =>
      let p := handleAppendEntries s t l pli plt es lc now
      (p.1, some p.2)
  | .voteResponse t g => (handleVoteResponse s t g, none)
  | .appendResponse t su mi => (handleAppendResponse s t su mi, none)

/-- Rust `ReplicaSet::append_command`: leader-only; `none` models the `bail!`,
leaving the state untouched. -/
def appendCommand (s : RState) (c : ReplicationCommand) : RState × Option Nat :=
  if s.state = .leader then
    let index := s.log.length + 1
    ({ s with log := s.log ++ [{ term := s.current_term, index := index, command := c }] },
      some index)
  else (s, none)

/-- Rust `ReplicaSet::start_election`. -/
def startElection (s : RState) : RState × ConsensusMessage :=
  let s1 := { s with current_term := s.current_term + 1, state := .candidate,
                     voted_for := some s.node_id }
  (s1, .requestVote s1.current_term s.node_id s1.log.length
        (((s1.log.getLast?).map LogEntry.term).getD 0))

/-- Rust `ReplicaSet::become_leader`. -/
def becomeLeader (s : RState) : RState :=
  let logLen := s.log.length + 1
  { s with state := .leader, leader_id := some s.node_id,
           next_index := s.peers.foldl (fun m p => assocInsert m p logLen) s.next_index,
           match_index := s.peers.foldl (fun m p => assocInsert m p 0) s.match_index }

/-- Rust `ReplicaSet::mark_applied`. -/
def markApplied (s : RState) (upTo : Nat) : RState :=
  if upTo > s.last_applied then { s with last_applied := upTo } else s

/-- One public operation on a `ReplicaSet`. -/
inductive ROp
  | message (m : ConsensusMessage) (now : Nat)
  | appendCmd (c : ReplicationCommand)
  | startElect
  | becomeLdr
  | markApp (n : Nat)
deriving DecidableEq, Repr

/-- Apply one public operation to the replica state. -/
def RState.applyOp (s : RState) : ROp → RState
  | .message m now => (processMessage s m now).1
  | .appendCmd c => (appendCommand s c).1
  | .startElect => (startElection s).1
  | .becomeLdr => becomeLeader s
  | .markApp n => markApplied s n

/-- States reachable from a fresh replica by any sequence of the public
operations. -/
inductive ReachableR (nid : String) (peers : List String) (now0 : Nat) : RState → Prop
  | init : ReachableR nid peers now0 (RState.init nid peers now0)
  | step {s : RState} (op : ROp) : ReachableR nid peers now0 s →
      ReachableR nid peers now0 (s.applyOp op)

/-- Side conditions for the amended claim C1: a `mark_applied` call never
outruns `commit_index`, and no `AppendEntries` conflict truncates
committed entries. -/
def okOp (s : RState) : ROp → Prop
  | .markApp n => n ≤ s.commit_index
  | .message (.appendEntries t _ pli plt _ _) _ =>
      (s.current_term ≤ t ∧ 0 < pli ∧
        (∃ e, s.log[pli - 1]? = some e ∧ e.term ≠ plt)) →
        s.commit_index ≤ pli - 1
  | _ => True

/-- Reachability restricted by `okOp`, for the amended claim C1. -/
inductive ReachableRGuarded (nid : String) (peers : List String) (now0 : Nat) : RState → Prop
  | init : ReachableRGuarded nid peers now0 (RState.init nid peers now0)
  | step {s : RState} (op : ROp) : ReachableRGuarded nid peers now0 s → okOp s op →
      ReachableRGuarded nid peers now0 (s.applyOp op)

/-- The successive states while a message trace is delivered through
`process_message`. -/
def runStates (s : RState) (msgs : List (ConsensusMessage × Nat)) : List RState :=
  msgs.scanl (fun st p => (processMessage st p.1 p.2).1) s

/-- The votes granted along a message trace: the response term and the
candidate, for every `RequestVote` answered with `vote_granted = true`. -/
def runGrants (s : RState) : List (ConsensusMessage × Nat) → List (Nat × String)
  | [] => []
  | (m, now) :: rest =>
      let p := processMessage s m now
      (match m with
       | .requestVote _ cand _ _ =>
          (match p.2 with
           | some (.voteResponse t true) => [(t, cand)]
           | _ => [])
       | _ => []) ++ runGrants p.1 rest

/-- Whether a message is a `RequestVote` or an `AppendEntries`. -/
def isElection : ConsensusMessage → Bool
  | .requestVote .. => true
  | .appendEntries .. => true
  | _ => false

/-! Section: Consistent-hash ring (`shard.rs`) -/

/-- The `BTreeMap<u64, usize>` ring as a `(hash, shard id)` list kept
sorted by strictly increasing hash; inserting an existing key replaces
its value, as the map does. -/
def ringInsert : List (Nat × Nat) → Nat → Nat → List (Nat × Nat)
  | [], k, v => [(k, v)]
  | (k', v') :: rest, k, v =>
      if k < k' then (k, v) :: (k', v') :: rest
      else if k = k' then (k, v) :: rest
      else (k', v') :: ringInsert rest k v

/-- Rust `self.ring.range(hash..).next()`: the entry with the least key at or
above `h` in a sorted ring. -/
def ringLookupGE : List (Nat × Nat) → Nat → Option (Nat × Nat)
  | [], _ => none
  | (k, v) :: rest, h => if h ≤ k then some (k, v) else ringLookupGE rest h

/-- Rust `ConsistentHashRing::get_node`: hash the key, take the first position
at or after the hash, wrap to the smallest position, 0 on an empty ring. -/
def ringGetNode (hash : List Nat → Nat) (ring : List (Nat × Nat)) (key : List Nat) : Nat :=
  match ring with
  | [] => 0
  | (_, v0) :: _ =>
      match ringLookupGE ring (hash key) with
      | some p => p.2
      | none => v0

/-- The virtual-node key string the code hashes:
`format!("node_{}_{}", node_id, i)`. -/
def virtualKey (node_id i : Nat) : String :=
  "node_" ++ toString node_id ++ "_" ++ toString i

/-- UTF-8 bytes of an ASCII string, as `str::as_bytes` produces. -/
def strBytes (s : String) : List Nat := s.data.map Char.toNat

/-- Rust `ConsistentHashRing::add_node`: insert `virtual_nodes` ring positions,
one at the hash of each virtual-node key, all owned by `node_id`. -/
def addNode (hash : List Nat → Nat) (virtual_nodes : Nat) (ring : List (Nat × Nat))
    (node_id : Nat) : List (Nat × Nat) :=
  (List.range virtual_nodes).foldl
    (fun r i => ringInsert r (hash (strBytes (virtualKey node_id i))) node_id) ring

/-- The shard id stored on the ring at exactly position `k`, if any. -/
def ringFind (ring : List (Nat × Nat)) (k : Nat) : Option Nat :=
  (ring.find? (fun p => p.1 == k)).map Prod.snd

/-- Ring keys strictly increasing: the ordered-map invariant. -/
def RingSorted (ring : List (Nat × Nat)) : Prop :=
  List.Pairwise (fun a b => a.1 < b.1) ring

/-! Section: One shard of the shard manager (`shard.rs`)

For claim C3 only the interplay between a shard Bloom filter and its
storage matters, so a shard is modelled by the list of keys passed to
`add_to_bloom` and the list of keys whose storage insert returned `Ok`;
the outcome of each fallible storage call is an explicit `ok` flag on the
operation. -/

/-- The bloom-relevant state of one `Shard`. -/
structure ShardSt where
  bloomKeys : List (List Nat)
  storedKeys : List (List Nat)
deriving DecidableEq, Repr

/-- One `ShardManager` operation routed to this shard; `ok` records
whether the underlying storage call succeeds. -/
inductive ShardOp
  | insNode (key : List Nat) (ok : Bool)
  | insEdge (key : List Nat) (ok : Bool)
  | getNodeOp (key : List Nat)
  | updNode (key : List Nat) (ok : Bool)
  | delNode (key : List Nat) (ok : Bool)
deriving DecidableEq, Repr

/-- Rust `ShardManager::insert_node` / `insert_edge` add the key to the bloom
filter first and then attempt the storage insert; the other operations
touch neither the bloom filter nor the set of inserted keys. -/
def shardApply (s : ShardSt) : ShardOp → ShardSt
  | .insNode k ok =>
      { bloomKeys := s.bloomKeys ++ [k],
        storedKeys := if ok then s.storedKeys ++ [k] else s.storedKeys }
  | .insEdge k ok =>
      { bloomKeys := s.bloomKeys ++ [k],
        storedKeys := if ok then s.storedKeys ++ [k] else s.storedKeys }
  | .getNodeOp _ => s
  | .updNode _ _ => s
  | .delNode _ _ => s

/-- A fresh shard: empty bloom filter, nothing stored. -/
def ShardSt.init : ShardSt := ⟨[], []⟩

/-- Running a sequence of operations against one shard from creation. -/
def shardRun (ops : List ShardOp) : ShardSt := ops.foldl shardApply ShardSt.init

/-- The keys for which a node or edge insert was attempted in `ops`,
successful or not. -/
def attemptedKeys : List ShardOp → List (List Nat)
  | [] => []
  | .insNode k _ :: rest => k :: attemptedKeys rest
  | .insEdge k _ :: rest => k :: attemptedKeys rest
  | _ :: rest => attemptedKeys rest

/-- A sample WAL entry used by the WAL witnesses. -/
def walSampleE1 : WalEntry :=
  { lsn := 1, timestamp := 0, entry_type := .insertNode, tx_id := none, data := [1, 2, 3] }

/-- A second sample WAL entry used by the WAL witnesses. -/
def walSampleE2 : WalEntry :=
  { lsn := 2, timestamp := 5, entry_type := .updateNode, tx_id := none, data := [4] }

/-- The append calls of the WAL round-trip witness. -/
def walSampleSpecs : List (WalEntryType × Nat × List Nat) :=
  [(.insertNode, 0, [1, 2, 3]), (.updateNode, 5, [4])]

/-- The witness deserializer inverting `serSimple` on the sample entries. -/
def walSampleDeser : List Nat → Option WalEntry :=
  tableDeser [walSampleE1, walSampleE2]

/-- A corrupted record: its header announces a 3-byte payload with stored
checksum 0, which does not match the CRC32 of the payload. -/
def walJunk : List Nat := leBytes 4 3 ++ leBytes 4 0 ++ [9, 9, 9]

-- theorems --

theorem leBytes_length (k n : Nat) : (leBytes k n).length = k := by
  induction k generalizing n with
  | zero => rfl
  | succ k ih => simp [leBytes, ih]

theorem leDecode_leBytes (k n : Nat) : leDecode (leBytes k n) = n % 2 ^ (8 * k) := by
  induction k generalizing n with
  | zero => simp [leBytes, leDecode, Nat.mod_one]
  | succ k ih =>
      have h : (2 : Nat) ^ (8 * (k + 1)) = 256 * 2 ^ (8 * k) := by
        rw [Nat.mul_add, Nat.pow_add]
        ring
      rw [leBytes, leDecode, ih, h, Nat.mod_mul]
      omega

theorem leDecode_leBytes_of_lt {k n : Nat} (h : n < 2 ^ (8 * k)) :
    leDecode (leBytes k n) = n := by
  rw [leDecode_leBytes, Nat.mod_eq_of_lt h]

namespace BloomFilter

theorem withParams_wf (nb nh : Nat) : (withParams nb nh).Wf := by
  refine ⟨by simp [withParams], ?_⟩
  intro w hw
  rw [withParams] at hw
  simp only [List.mem_replicate] at hw
  rw [hw.2]
  exact Nat.two_pow_pos 64

theorem getBitIndex_pos {f : BloomFilter} (h : f.num_bits ≠ 0) (h1 h2 i : Nat) :
    f.getBitIndex h1 h2 i = some (probePos f.num_bits h1 h2 i) := by
  simp [getBitIndex, h, probePos]

theorem probePos_lt {nb : Nat} (h : 1 ≤ nb) (h1 h2 i : Nat) : probePos nb h1 h2 i < nb :=
  Nat.mod_lt _ h

theorem setBit_spec {f : BloomFilter} {idx : Nat} (h : idx / 64 < f.bits.length) :
    ∃ f', f.setBit idx = some f' ∧
      f'.num_bits = f.num_bits ∧ f'.num_hashes = f.num_hashes ∧
      f'.bits.length = f.bits.length ∧
      ((∀ w ∈ f.bits, w < 2 ^ 64) → ∀ w' ∈ f'.bits, w' < 2 ^ 64) ∧
      f'.getBit idx = some true ∧
      (∀ j, f.getBit j = some true → f'.getBit j = some true) := by
  refine ⟨{ f with bits := f.bits.set (idx / 64) (f.bits.get ⟨idx / 64, h⟩ ||| 2 ^ (idx % 64)) },
    ?_, rfl, rfl, by simp, ?_, ?_, ?_⟩
  · simp only [setBit, List.getElem?_eq_getElem h]
    rfl
  · intro hb w' hw'
    simp only at hw'
    rcases List.mem_or_eq_of_mem_set hw' with hm | rfl
    · exact hb _ hm
    · exact Nat.or_lt_two_pow (hb _ (List.getElem_mem h))
        (Nat.pow_lt_pow_right (by omega) (Nat.mod_lt _ (by omega)))
  · simp only [getBit, List.getElem?_set_self h]
    simp [Nat.testBit_two_pow_self]
  · intro j hj
    simp only [getBit] at hj ⊢
    by_cases hcase : idx / 64 = j / 64
    · rw [← hcase] at hj ⊢
      rw [List.getElem?_eq_getElem h] at hj
      simp only [List.getElem?_set_self h]
      simp only [Option.some.injEq] at hj ⊢
      rw [Nat.testBit_or]
      simp [hj]
    · simp only [List.getElem?_set_ne hcase]
      exact hj

theorem insertLoop_spec (h1 h2 : Nat) (is : List Nat) {f : BloomFilter}
    (hwf : f.Wf) (hnb : 1 ≤ f.num_bits) :
    ∃ f', (is.foldlM (insertStep h1 h2) f) = some f' ∧ f'.Wf ∧
      f'.num_bits = f.num_bits ∧ f'.num_hashes = f.num_hashes ∧
      (∀ j, f.getBit j = some true → f'.getBit j = some true) ∧
      (∀ i ∈ is, f'.getBit (probePos f.num_bits h1 h2 i) = some true) := by
  induction is generalizing f with
  | nil => exact ⟨f, rfl, hwf, rfl, rfl, fun _ hj => hj, by simp⟩
  | cons i rest ih =>
      have hnbne : f.num_bits ≠ 0 := by omega
      have hpos : probePos f.num_bits h1 h2 i < f.num_bits := probePos_lt hnb h1 h2 i
      have hword : probePos f.num_bits h1 h2 i / 64 < f.bits.length := by
        rw [hwf.1]; omega
      obtain ⟨f1, hset, hnb1, hnh1, hlen1, hbnd1, hgot1, hmono1⟩ := setBit_spec hword
      have hwf1 : f1.Wf := ⟨by rw [hlen1, hnb1, hwf.1], hbnd1 hwf.2⟩
      have hnb1' : 1 ≤ f1.num_bits := by rw [hnb1]; exact hnb
      obtain ⟨f', hfold, hwf', hnbe', hnh', hmono', hall'⟩ := ih hwf1 hnb1'
      refine ⟨f', ?_, hwf', by rw [hnbe', hnb1], by rw [hnh', hnh1], ?_, ?_⟩
      · rw [List.foldlM_cons]
        have hstep : insertStep h1 h2 f i = some f1 := by
          simp only [insertStep, getBitIndex_pos hnbne, Option.bind_eq_bind,
            Option.some_bind]
          exact hset
        rw [hstep]
        simpa using hfold
      · intro j hj
        exact hmono' j (hmono1 j hj)
      · intro i' hi'
        rcases List.mem_cons.mp hi' with rfl | hmem
        · exact hmono' _ hgot1
        · have h := hall' i' hmem
          rwa [hnb1] at h

theorem insertItem_spec (hp : List Nat → Nat × Nat) {f : BloomFilter}
    (hwf : f.Wf) (hnb : 1 ≤ f.num_bits) (item : List Nat) :
    ∃ f', insertItem hp f item = some f' ∧ f'.Wf ∧
      f'.num_bits = f.num_bits ∧ f'.num_hashes = f.num_hashes ∧
      (∀ j, f.getBit j = some true → f'.getBit j = some true) ∧
      (∀ i ∈ List.range f.num_hashes,
        f'.getBit (probePos f.num_bits (hp item).1 (hp item).2 i) = some true) := by
  obtain ⟨g, hfold, hgwf, hgnb, hgnh, hgmono, hgall⟩ :=
    insertLoop_spec (hp item).1 (hp item).2 (List.range f.num_hashes) hwf hnb
  refine ⟨{ g with count := g.count + 1 }, ?_, ⟨hgwf.1, hgwf.2⟩, hgnb, hgnh, hgmono, hgall⟩
  simp only [insertItem, hfold, Option.bind_eq_bind, Option.some_bind]
  rfl

theorem mayContainAux_true {f : BloomFilter} (hnb : f.num_bits ≠ 0) {h1 h2 : Nat}
    {is : List Nat}
    (hall : ∀ i ∈ is, f.getBit (probePos f.num_bits h1 h2 i) = some true) :
    mayContainAux f h1 h2 is = some true := by
  induction is with
  | nil => rfl
  | cons i rest ih =>
      simp only [mayContainAux, getBitIndex_pos hnb, Option.bind_eq_bind, Option.some_bind]
      rw [hall i (by simp)]
      simpa using ih (fun i' hi' => hall i' (by simp [hi']))

theorem mayContainAux_isSome {f : BloomFilter} (hwf : f.Wf) (hnb : 1 ≤ f.num_bits)
    (h1 h2 : Nat) (is : List Nat) : (mayContainAux f h1 h2 is).isSome := by
  induction is with
  | nil => rfl
  | cons i rest ih =>
      have hnbne : f.num_bits ≠ 0 := by omega
      have hword : probePos f.num_bits h1 h2 i / 64 < f.bits.length := by
        have hlt := probePos_lt hnb h1 h2 i
        rw [hwf.1]
        omega
      obtain ⟨b, hb⟩ : ∃ b, f.getBit (probePos f.num_bits h1 h2 i) = some b :=
        ⟨_, by rw [getBit, List.getElem?_eq_getElem hword]⟩
      simp only [mayContainAux, getBitIndex_pos hnbne, Option.bind_eq_bind,
        Option.some_bind, hb]
      cases b
      · simp
      · simpa using ih

theorem insertAll_spec (hp : List Nat → Nat × Nat) {f : BloomFilter}
    (hwf : f.Wf) (hnb : 1 ≤ f.num_bits) (items : List (List Nat)) :
    ∃ f', insertAll hp f items = some f' ∧ f'.Wf ∧
      f'.num_bits = f.num_bits ∧ f'.num_hashes = f.num_hashes ∧
      (∀ j, f.getBit j = some true → f'.getBit j = some true) ∧
      (∀ x ∈ items, mayContainItem hp f' x = some true) := by
  induction items generalizing f with
  | nil => exact ⟨f, rfl, hwf, rfl, rfl, fun _ h => h, by simp⟩
  | cons x rest ih =>
      obtain ⟨f1, hins, hwf1, hnb1, hnh1, hmono1, hall1⟩ := insertItem_spec hp hwf hnb x
      obtain ⟨f', hfold, hwf', hnb', hnh', hmono', hmay'⟩ :=
        ih hwf1 (by rw [hnb1]; exact hnb)
      refine ⟨f', ?_, hwf', by rw [hnb', hnb1], by rw [hnh', hnh1],
        fun j hj => hmono' j (hmono1 j hj), ?_⟩
      · rw [insertAll, List.foldlM_cons, hins]
        simpa [insertAll] using hfold
      · intro y hy
        rcases List.mem_cons.mp hy with rfl | hmem
        · rw [mayContainItem]
          have hne : f'.num_bits ≠ 0 := by rw [hnb', hnb1]; omega
          apply mayContainAux_true hne
          intro i hi
          rw [hnb', hnb1]
          apply hmono'
          apply hall1
          rwa [hnh', hnh1] at hi
        · exact hmay' y hmem

theorem leDecode_leBytes4 {n : Nat} (h : n < 2 ^ 32) : leDecode (leBytes 4 n) = n :=
  leDecode_leBytes_of_lt (by simpa using h)

theorem leDecode_leBytes8 {n : Nat} (h : n < 2 ^ 64) : leDecode (leBytes 8 n) = n :=
  leDecode_leBytes_of_lt (by simpa using h)

theorem flattenBlocks_length (ws : List Nat) :
    ((ws.map (leBytes 8)).flatten).length = 8 * ws.length := by
  induction ws with
  | nil => rfl
  | cons w ws ih =>
      simp only [List.map_cons, List.flatten_cons, List.length_append, leBytes_length, ih,
        List.length_cons]
      omega

theorem flattenBlocks_extract (ws : List Nat) (i : Nat) (h : i < ws.length) :
    (((ws.map (leBytes 8)).flatten).drop (i * 8)).take 8 = leBytes 8 (ws.get ⟨i, h⟩) := by
  induction ws generalizing i with
  | nil => simp at h
  | cons w ws ih =>
      cases i with
      | zero =>
          simp only [List.map_cons, List.flatten_cons, Nat.zero_mul, List.drop_zero,
            List.getElem_cons_zero]
          exact List.take_left' (leBytes_length 8 w)
      | succ i =>
          have hsplit : (i + 1) * 8 = 8 + i * 8 := by ring
          rw [List.map_cons, List.flatten_cons, hsplit, ← List.drop_drop,
            List.drop_left' (leBytes_length 8 w)]
          simpa using ih i (by simpa using h)

theorem toBytesB_fromBytesB {f : BloomFilter} (hwf : f.Wf)
    (hnb : f.num_bits < 2 ^ 32) (hnh : f.num_hashes < 2 ^ 32) (hcnt : f.count < 2 ^ 32) :
    fromBytesB (toBytesB f) = some f := by
  have hlen : (toBytesB f).length = 12 + f.bits.length * 8 := by
    simp only [toBytesB, List.length_append, leBytes_length, flattenBlocks_length]
    omega
  have htake4 : (toBytesB f).take 4 = leBytes 4 f.num_bits := by
    rw [toBytesB, List.append_assoc, List.append_assoc]
    exact List.take_left' (leBytes_length 4 f.num_bits)
  have hdrop4 : (toBytesB f).drop 4 =
      leBytes 4 f.num_hashes ++ (leBytes 4 f.count ++ (f.bits.map (leBytes 8)).flatten) := by
    rw [toBytesB, List.append_assoc, List.append_assoc]
    exact List.drop_left' (leBytes_length 4 f.num_bits)
  have hdrop8 : (toBytesB f).drop 8 =
      leBytes 4 f.count ++ (f.bits.map (leBytes 8)).flatten := by
    have h48 : (4 : Nat) + 4 = 8 := by norm_num
    rw [← h48, ← List.drop_drop, hdrop4]
    exact List.drop_left' (leBytes_length 4 f.num_hashes)
  have hdrop12 : (toBytesB f).drop 12 = (f.bits.map (leBytes 8)).flatten := by
    have h812 : (8 : Nat) + 4 = 12 := by norm_num
    rw [← h812, ← List.drop_drop, hdrop8]
    exact List.drop_left' (leBytes_length 4 f.count)
  have htake48 : ((toBytesB f).drop 4).take 4 = leBytes 4 f.num_hashes := by
    rw [hdrop4]
    exact List.take_left' (leBytes_length 4 f.num_hashes)
  have htake812 : ((toBytesB f).drop 8).take 4 = leBytes 4 f.count := by
    rw [hdrop8]
    exact List.take_left' (leBytes_length 4 f.count)
  have hg1 : ¬ ((toBytesB f).length < 12) := by omega
  rw [fromBytesB, if_neg hg1]
  simp only [htake4, htake48, htake812, leDecode_leBytes4 hnb, leDecode_leBytes4 hnh,
    leDecode_leBytes4 hcnt]
  rw [if_neg (by rw [hlen, hwf.1]; omega)]
  have hbits : (List.range ((f.num_bits + 63) / 64)).map
      (fun i => leDecode (((toBytesB f).drop (12 + i * 8)).take 8)) = f.bits := by
    apply List.ext_getElem
    · simp [hwf.1]
    · intro i hi hib
      have hib' : i < f.bits.length := by simpa using hib
      have hstep : (toBytesB f).drop (12 + i * 8) =
          ((f.bits.map (leBytes 8)).flatten).drop (i * 8) := by
        rw [← List.drop_drop, hdrop12]
      simp only [List.getElem_map, List.getElem_range, hstep,
        flattenBlocks_extract f.bits i hib']
      exact leDecode_leBytes8 (hwf.2 _ (List.getElem_mem hib'))
  rw [hbits]

theorem fromBytesB_short {data : List Nat} (h : data.length < 12) : fromBytesB data = none := by
  rw [fromBytesB, if_pos h]

theorem fromBytesB_truncated {data : List Nat} (h12 : 12 ≤ data.length)
    (h : data.length < 12 + ((leDecode (data.take 4) + 63) / 64) * 8) :
    fromBytesB data = none := by
  rw [fromBytesB, if_neg (by omega)]
  simp only
  rw [if_pos h]

theorem insertItem_none_of_zero (hp : List Nat → Nat × Nat) (nh : Nat) (hnh : 1 ≤ nh)
    (x : List Nat) : insertItem hp (withParams 0 nh) x = none := by
  obtain ⟨m, rfl⟩ : ∃ m, nh = m + 1 := ⟨nh - 1, by omega⟩
  simp [insertItem, List.range_succ_eq_map, insertStep, getBitIndex, withParams]

theorem mayContainItem_none_of_zero (hp : List Nat → Nat × Nat) (nh : Nat) (hnh : 1 ≤ nh)
    (x : List Nat) : mayContainItem hp (withParams 0 nh) x = none := by
  obtain ⟨m, rfl⟩ : ∃ m, nh = m + 1 := ⟨nh - 1, by omega⟩
  simp [mayContainItem, List.range_succ_eq_map, mayContainAux, getBitIndex, withParams]

end BloomFilter

/-- C5: for every finite list of byte strings and every Bloom filter built by
`with_params` with `num_bits >= 1`, inserting every item succeeds and afterwards
`may_contain` returns true for each inserted item: no false negatives, for any
hash pair function. -/
theorem aresa_C5 (hp : List Nat → Nat × Nat) (nb nh : Nat) (items : List (List Nat))
    (hnb : 1 ≤ nb) :
    ∃ f', BloomFilter.insertAll hp (BloomFilter.withParams nb nh) items = some f' ∧
      ∀ x ∈ items, BloomFilter.mayContainItem hp f' x = some true := by
  obtain ⟨f', h1, _, _, _, _, h6⟩ :=
    BloomFilter.insertAll_spec hp (BloomFilter.withParams_wf nb nh) hnb items
  exact ⟨f', h1, h6⟩

theorem aresa_C5_witness :
    (1 ≤ 1) ∧
    ∃ f', BloomFilter.insertAll (fun _ => (0, 0)) (BloomFilter.withParams 1 1) [[7]] = some f' ∧
      ∀ x ∈ [[7]], BloomFilter.mayContainItem (fun _ => (0, 0)) f' x = some true :=
  ⟨by decide, aresa_C5 (fun _ => (0, 0)) 1 1 [[7]] (by decide)⟩

/-- C9: for any well-formed Bloom filter with `num_bits >= 1`, every computed bit
index is below `num_bits` and its word index below `ceil(num_bits / 64)`, so
`insert` and `may_contain` are total; and the precondition is genuine, because
`with_params` accepts `num_bits = 0` and on such a filter (with at least one
hash function) `insert` and `may_contain` hit the remainder-by-zero in
`get_bit_index`, modelled by `none`. -/
theorem aresa_C9 :
    (∀ (f : BloomFilter) (h1 h2 i : Nat), f.Wf → 1 ≤ f.num_bits →
      ∃ j, f.getBitIndex h1 h2 i = some j ∧ j < f.num_bits ∧
        j / 64 < (f.num_bits + 63) / 64) ∧
    (∀ (f : BloomFilter) (hp : List Nat → Nat × Nat) (x : List Nat),
      f.Wf → 1 ≤ f.num_bits →
      (BloomFilter.insertItem hp f x).isSome ∧ (BloomFilter.mayContainItem hp f x).isSome) ∧
    (∀ nh : Nat, (BloomFilter.withParams 0 nh).num_bits = 0) ∧
    (∀ (nh : Nat) (hp : List Nat → Nat × Nat) (x : List Nat), 1 ≤ nh →
      BloomFilter.insertItem hp (BloomFilter.withParams 0 nh) x = none ∧
      BloomFilter.mayContainItem hp (BloomFilter.withParams 0 nh) x = none) := by
  refine ⟨?_, ?_, fun _ => rfl, fun nh hp x hnh =>
    ⟨BloomFilter.insertItem_none_of_zero hp nh hnh x,
     BloomFilter.mayContainItem_none_of_zero hp nh hnh x⟩⟩
  · intro f h1 h2 i hwf hnb
    refine ⟨BloomFilter.probePos f.num_bits h1 h2 i,
      BloomFilter.getBitIndex_pos (by omega) h1 h2 i,
      BloomFilter.probePos_lt hnb h1 h2 i, ?_⟩
    have hlt := BloomFilter.probePos_lt hnb h1 h2 i
    omega
  · intro f hp x hwf hnb
    constructor
    · obtain ⟨f', h, _⟩ := BloomFilter.insertItem_spec hp hwf hnb x
      simp [h]
    · exact BloomFilter.mayContainAux_isSome hwf hnb _ _ _

theorem aresa_C9_witness :
    (∃ j, (BloomFilter.withParams 64 3).getBitIndex 5 7 2 = some j ∧
        j < (BloomFilter.withParams 64 3).num_bits ∧
        j / 64 < ((BloomFilter.withParams 64 3).num_bits + 63) / 64) ∧
    ((BloomFilter.insertItem (fun _ => (5, 7)) (BloomFilter.withParams 64 3) [1]).isSome ∧
     (BloomFilter.mayContainItem (fun _ => (5, 7)) (BloomFilter.withParams 64 3) [1]).isSome) ∧
    (BloomFilter.insertItem (fun _ => (5, 7)) (BloomFilter.withParams 0 2) [1] = none ∧
     BloomFilter.mayContainItem (fun _ => (5, 7)) (BloomFilter.withParams 0 2) [1] = none) :=
  ⟨aresa_C9.1 _ 5 7 2 (BloomFilter.withParams_wf 64 3) (by decide),
   aresa_C9.2.1 _ (fun _ => (5, 7)) [1] (BloomFilter.withParams_wf 64 3) (by decide),
   aresa_C9.2.2.2 2 (fun _ => (5, 7)) [1] (by decide)⟩

/-- C8: serialization round-trips exactly for every well-formed filter whose
`num_bits` and `count` fit in a `u32`, and `from_bytes` rejects any buffer
shorter than its 12-byte header or than the word region announced by the
`num_bits` field decoded from its first 4 bytes. -/
theorem aresa_C8 :
    (∀ f : BloomFilter, f.Wf → f.num_bits < 2 ^ 32 → f.num_hashes < 2 ^ 32 →
      f.count < 2 ^ 32 → BloomFilter.fromBytesB (BloomFilter.toBytesB f) = some f) ∧
    (∀ data : List Nat, data.length < 12 → BloomFilter.fromBytesB data = none) ∧
    (∀ data : List Nat, 12 ≤ data.length →
      data.length < 12 + ((leDecode (data.take 4) + 63) / 64) * 8 →
      BloomFilter.fromBytesB data = none) :=
  ⟨fun _ hwf h1 h2 h3 => BloomFilter.toBytesB_fromBytesB hwf h1 h2 h3,
   fun _ h => BloomFilter.fromBytesB_short h,
   fun _ h1 h2 => BloomFilter.fromBytesB_truncated h1 h2⟩

theorem aresa_C8_witness :
    BloomFilter.fromBytesB (BloomFilter.toBytesB (BloomFilter.withParams 64 2)) =
      some (BloomFilter.withParams 64 2) ∧
    BloomFilter.fromBytesB [1, 2, 3] = none ∧
    BloomFilter.fromBytesB (leBytes 4 64 ++ leBytes 4 2 ++ leBytes 4 0) = none :=
  ⟨aresa_C8.1 _ (BloomFilter.withParams_wf 64 2) (by decide) (by decide) (by decide),
   aresa_C8.2.1 _ (by decide),
   aresa_C8.2.2 _ (by decide) (by decide)⟩

theorem entryFromBytes_bounds {deser : List Nat → Option WalEntry} {data : List Nat}
    {e : WalEntry} {n : Nat} (h : entryFromBytes deser data = some (e, n)) :
    8 ≤ n ∧ 8 ≤ data.length := by
  simp only [entryFromBytes] at h
  split_ifs at h with h1 h2 h3
  cases hm : deser ((data.drop 8).take (leDecode (data.take 4))) with
  | none => rw [hm] at h; simp at h
  | some e' =>
      rw [hm] at h
      simp only [Option.some.injEq, Prod.mk.injEq] at h
      omega

theorem crc32Round_lt {x : Nat} (h : x < 2 ^ 32) : crc32Round x < 2 ^ 32 := by
  rw [crc32Round]
  split
  · exact Nat.xor_lt_two_pow (by omega) (by norm_num)
  · omega

theorem crc32_lt (data : List Nat) : crc32 data < 2 ^ 32 := by
  have hiter : ∀ (m : Nat) (x : Nat), x < 2 ^ 32 → crc32Round^[m] x < 2 ^ 32 := by
    intro m
    induction m with
    | zero => intro x hx; exact hx
    | succ m ihm =>
        intro x hx
        rw [Function.iterate_succ_apply]
        exact ihm _ (crc32Round_lt hx)
  have hfold : ∀ (l : List Nat) (c : Nat), c < 2 ^ 32 → l.foldl crc32Byte c < 2 ^ 32 := by
    intro l
    induction l with
    | nil => intro c hc; exact hc
    | cons b rest ih =>
        intro c hc
        exact ih _ (hiter 8 _ (Nat.xor_lt_two_pow hc (by omega)))
  rw [crc32]
  exact Nat.xor_lt_two_pow (hfold data _ (by norm_num)) (by norm_num)

theorem readAll_none {deser : List Nat → Option WalEntry} {data : List Nat}
    (h : entryFromBytes deser data = none) : readAll deser data = [] := by
  rw [readAll]
  split
  · rfl
  · next e n heq =>
      rw [h] at heq
      cases heq

theorem readAll_cons {deser : List Nat → Option WalEntry} {data : List Nat} {e : WalEntry}
    {n : Nat} (h : entryFromBytes deser data = some (e, n)) :
    readAll deser data = e :: readAll deser (data.drop n) := by
  rw [readAll]
  split
  · next heq =>
      rw [h] at heq
      cases heq
  · next e' n' heq =>
      rw [h] at heq
      simp only [Option.some.injEq, Prod.mk.injEq] at heq
      obtain ⟨rfl, rfl⟩ := heq
      rfl

theorem entryFromBytes_encode {ser : WalEntry → List Nat} {deser : List Nat → Option WalEntry}
    {e : WalEntry} (rest : List Nat)
    (hd : deser (ser e) = some e) (hl : (ser e).length < 2 ^ 32) :
    entryFromBytes deser (entryToBytes ser e ++ rest) = some (e, 8 + (ser e).length) := by
  have hlen : (entryToBytes ser e ++ rest).length = 8 + (ser e).length + rest.length := by
    simp only [entryToBytes, List.length_append, leBytes_length]
  have htake4 : (entryToBytes ser e ++ rest).take 4 = leBytes 4 (ser e).length := by
    simp only [entryToBytes, List.append_assoc]
    exact List.take_left' (leBytes_length 4 _)
  have hdrop4 : (entryToBytes ser e ++ rest).drop 4 =
      leBytes 4 (crc32 (ser e)) ++ (ser e ++ rest) := by
    simp only [entryToBytes, List.append_assoc]
    exact List.drop_left' (leBytes_length 4 _)
  have htake48 : ((entryToBytes ser e ++ rest).drop 4).take 4 = leBytes 4 (crc32 (ser e)) := by
    rw [hdrop4]
    exact List.take_left' (leBytes_length 4 _)
  have hdrop8 : (entryToBytes ser e ++ rest).drop 8 = ser e ++ rest := by
    have h44 : (4 : Nat) + 4 = 8 := rfl
    rw [← h44, ← List.drop_drop, hdrop4]
    exact List.drop_left' (leBytes_length 4 _)
  have hpayload : ((entryToBytes ser e ++ rest).drop 8).take (ser e).length = ser e := by
    rw [hdrop8]
    exact List.take_left' rfl
  rw [entryFromBytes, if_neg (by rw [hlen]; omega)]
  simp only [htake4, BloomFilter.leDecode_leBytes4 hl, htake48,
    BloomFilter.leDecode_leBytes4 (crc32_lt (ser e))]
  rw [if_neg (by rw [hlen]; omega)]
  simp only [hpayload]
  rw [if_neg (by simp), hd]

theorem readAll_blocks {ser : WalEntry → List Nat} {deser : List Nat → Option WalEntry}
    (es : List WalEntry) (junk : List Nat)
    (hcodec : ∀ e ∈ es, deser (ser e) = some e)
    (hlen : ∀ e ∈ es, (ser e).length < 2 ^ 32)
    (hjunk : entryFromBytes deser junk = none) :
    readAll deser ((es.map (entryToBytes ser)).flatten ++ junk) = es := by
  induction es with
  | nil => simpa using readAll_none hjunk
  | cons e rest ih =>
      have hparse := @entryFromBytes_encode ser deser e
        ((rest.map (entryToBytes ser)).flatten ++ junk) (hcodec e (by simp)) (hlen e (by simp))
      rw [List.map_cons, List.flatten_cons, List.append_assoc, readAll_cons hparse]
      have hdrop : (entryToBytes ser e ++ ((rest.map (entryToBytes ser)).flatten ++ junk)).drop
          (8 + (ser e).length) = (rest.map (entryToBytes ser)).flatten ++ junk := by
        apply List.drop_left'
        simp only [entryToBytes, List.length_append, leBytes_length]
      rw [hdrop, ih (fun x hx => hcodec x (by simp [hx])) (fun x hx => hlen x (by simp [hx]))]

/-- C6: a WAL file holding the framed bytes of valid entries followed by a
record that fails to parse (its checksum mismatching or its bytes truncated,
so `entryFromBytes` rejects it) is read by `read_all` as exactly the valid
entries, in order: the corrupted record stops the scan, it is neither skipped
nor an error for the whole read. -/
theorem aresa_C6 (ser : WalEntry → List Nat) (deser : List Nat → Option WalEntry)
    (es : List WalEntry) (junk : List Nat)
    (hcodec : ∀ e ∈ es, deser (ser e) = some e)
    (hlen : ∀ e ∈ es, (ser e).length < 2 ^ 32)
    (hjunk : entryFromBytes deser junk = none) :
    readAll deser ((es.map (entryToBytes ser)).flatten ++ junk) = es :=
  readAll_blocks es junk hcodec hlen hjunk


theorem shardFoldl_bloom {ops : List ShardOp} {s : ShardSt} {k : List Nat}
    (h : k ∈ (ops.foldl shardApply s).bloomKeys) :
    k ∈ s.bloomKeys ∨ k ∈ attemptedKeys ops := by
  induction ops generalizing s with
  | nil => exact Or.inl h
  | cons op rest ih =>
      rw [List.foldl_cons] at h
      rcases ih h with hmem | hmem
      · cases op with
        | insNode key ok =>
            rcases List.mem_append.mp hmem with h2 | h2
            · exact Or.inl h2
            · simp only [List.mem_singleton] at h2
              subst h2
              exact Or.inr (by simp [attemptedKeys])
        | insEdge key ok =>
            rcases List.mem_append.mp hmem with h2 | h2
            · exact Or.inl h2
            · simp only [List.mem_singleton] at h2
              subst h2
              exact Or.inr (by simp [attemptedKeys])
        | getNodeOp key => exact Or.inl hmem
        | updNode key ok => exact Or.inl hmem
        | delNode key ok => exact Or.inl hmem
      · cases op with
        | insNode key ok => exact Or.inr (by simp [attemptedKeys, hmem])
        | insEdge key ok => exact Or.inr (by simp [attemptedKeys, hmem])
        | getNodeOp key => exact Or.inr hmem
        | updNode key ok => exact Or.inr hmem
        | delNode key ok => exact Or.inr hmem

/-- C3 counterexample: one `insert_node` whose storage call fails leaves
the key recorded in the bloom filter of the shard although it was never
inserted into storage, because `insert_node` updates the bloom filter
before the storage call. -/
theorem aresa_C3_cex :
    [1] ∈ (shardRun [ShardOp.insNode [1] false]).bloomKeys ∧
    [1] ∉ (shardRun [ShardOp.insNode [1] false]).storedKeys := by
  constructor
  · decide
  · decide

/-- C3 (amended): in every reachable state of a shard, every key the
bloom filter records is one for which a node or edge insert was attempted
on that shard; a key whose storage insert failed may still be recorded,
as the bloom update precedes the storage call. -/
theorem aresa_C3 (ops : List ShardOp) (k : List Nat)
    (h : k ∈ (shardRun ops).bloomKeys) : k ∈ attemptedKeys ops := by
  rcases shardFoldl_bloom h with h2 | h2
  · simp [ShardSt.init] at h2
  · exact h2

theorem aresa_C3_witness :
    [2] ∈ (shardRun [ShardOp.insNode [2] true]).bloomKeys ∧
    [2] ∈ attemptedKeys [ShardOp.insNode [2] true] :=
  ⟨by decide, aresa_C3 [ShardOp.insNode [2] true] [2] (by decide)⟩

/-- C10: an `AppendEntries` whose term is strictly below `current_term` is
answered with `AppendResponse` carrying the `current_term` of the receiver,
`success = false` and `match_index = 0`, and the whole replica state —
role, term, vote, log, commit and applied indices, peer maps, heartbeat
clock and leader id — is exactly what it was before the call. -/
theorem aresa_C10 (s : RState) (t : Nat) (ldr : String) (pli plt : Nat)
    (es : List LogEntry) (lc : Nat) (now : Nat) (h : t < s.current_term) :
    handleAppendEntries s t ldr pli plt es lc now =
      (s, .appendResponse s.current_term false 0) ∧
    processMessage s (.appendEntries t ldr pli plt es lc) now =
      (s, some (.appendResponse s.current_term false 0)) := by
  have h1 : handleAppendEntries s t ldr pli plt es lc now =
      (s, .appendResponse s.current_term false 0) := by
    rw [handleAppendEntries, if_pos h]
  exact ⟨h1, by simp [processMessage, h1]⟩

theorem aresa_C10_witness :
    handleAppendEntries (RState.applyOp (RState.init "n1" [] 0) ROp.startElect) 0 "x" 3 2
        [] 7 9 =
      (RState.applyOp (RState.init "n1" [] 0) ROp.startElect,
        .appendResponse (RState.applyOp (RState.init "n1" [] 0) ROp.startElect).current_term
          false 0) ∧
    processMessage (RState.applyOp (RState.init "n1" [] 0) ROp.startElect)
        (.appendEntries 0 "x" 3 2 [] 7) 9 =
      (RState.applyOp (RState.init "n1" [] 0) ROp.startElect,
        some (.appendResponse
          (RState.applyOp (RState.init "n1" [] 0) ROp.startElect).current_term false 0)) :=
  aresa_C10 (RState.applyOp (RState.init "n1" [] 0) ROp.startElect) 0 "x" 3 2 [] 7 9
    (by decide)

theorem foldlAppend_length_ge (es : List LogEntry) (lg : List LogEntry) :
    lg.length ≤
      (es.foldl (fun lg e => if e.index > lg.length then lg ++ [e] else lg) lg).length := by
  induction es generalizing lg with
  | nil => exact Nat.le_refl _
  | cons e rest ih =>
      rw [List.foldl_cons]
      refine Nat.le_trans ?_ (ih _)
      split_ifs
      · simp
      · exact Nat.le_refl _

theorem appendPhase_inv {s : RState} (es : List LogEntry) (lc : Nat)
    (h1 : s.commit_index ≤ s.log.length) (h2 : s.last_applied ≤ s.commit_index) :
    ((appendPhase s es lc).1).commit_index ≤ ((appendPhase s es lc).1).log.length ∧
    ((appendPhase s es lc).1).last_applied ≤ ((appendPhase s es lc).1).commit_index := by
  have hgrow := foldlAppend_length_ge es s.log
  rw [appendPhase]
  simp only
  split_ifs with hc
  · refine ⟨Nat.min_le_right _ _, Nat.le_min.mpr ⟨?_, ?_⟩⟩
    · dsimp only at hc ⊢
      omega
    · dsimp only at hc ⊢
      omega
  · exact ⟨Nat.le_trans h1 hgrow, h2⟩

theorem handleAppendEntriesRest_inv {s2 : RState} (pli plt : Nat) (es : List LogEntry)
    (lc : Nat)
    (h1 : s2.commit_index ≤ s2.log.length) (h2 : s2.last_applied ≤ s2.commit_index)
    (hok : (0 < pli ∧ (∃ e, s2.log[pli - 1]? = some e ∧ e.term ≠ plt)) →
      s2.commit_index ≤ pli - 1) :
    ((handleAppendEntriesRest s2 pli plt es lc).1).commit_index ≤
      ((handleAppendEntriesRest s2 pli plt es lc).1).log.length ∧
    ((handleAppendEntriesRest s2 pli plt es lc).1).last_applied ≤
      ((handleAppendEntriesRest s2 pli plt es lc).1).commit_index := by
  rw [handleAppendEntriesRest]
  by_cases hp : 0 < pli
  · rw [if_pos hp]
    cases hget : s2.log[pli - 1]? with
    | some entry =>
        by_cases hne : entry.term ≠ plt
        · have hcommit : s2.commit_index ≤ pli - 1 := hok ⟨hp, entry, hget, hne⟩
          simp only [hget, if_pos hne, List.length_take]
          exact ⟨Nat.le_min.mpr ⟨hcommit, h1⟩, h2⟩
        · simp only [hget, if_neg hne]
          exact appendPhase_inv es lc h1 h2
    | none =>
        simp only [hget]
        exact ⟨h1, h2⟩
  · rw [if_neg hp]
    exact appendPhase_inv es lc h1 h2

theorem handleRequestVote_frame (s : RState) (t : Nat) (c : String) (lli llt now : Nat) :
    ((handleRequestVote s t c lli llt now).1).log = s.log ∧
    ((handleRequestVote s t c lli llt now).1).commit_index = s.commit_index ∧
    ((handleRequestVote s t c lli llt now).1).last_applied = s.last_applied := by
  rw [handleRequestVote]
  split_ifs <;> simp [apply_ite]

theorem handleVoteResponse_frame (s : RState) (t : Nat) (g : Bool) :
    (handleVoteResponse s t g).log = s.log ∧
    (handleVoteResponse s t g).commit_index = s.commit_index ∧
    (handleVoteResponse s t g).last_applied = s.last_applied := by
  rw [handleVoteResponse]
  split_ifs <;> simp

theorem handleAppendResponse_frame (s : RState) (t : Nat) (su : Bool) (mi : Nat) :
    (handleAppendResponse s t su mi).log = s.log ∧
    (handleAppendResponse s t su mi).commit_index = s.commit_index ∧
    (handleAppendResponse s t su mi).last_applied = s.last_applied := by
  rw [handleAppendResponse]
  split_ifs <;> simp

theorem applyOp_inv {s : RState} (op : ROp)
    (h1 : s.commit_index ≤ s.log.length) (h2 : s.last_applied ≤ s.commit_index)
    (hok : okOp s op) :
    (s.applyOp op).commit_index ≤ (s.applyOp op).log.length ∧
    (s.applyOp op).last_applied ≤ (s.applyOp op).commit_index := by
  cases op with
  | message m now =>
      cases m with
      | requestVote t c lli llt =>
          have hf := handleRequestVote_frame s t c lli llt now
          simp only [RState.applyOp, processMessage]
          rw [hf.1, hf.2.1, hf.2.2]
          exact ⟨h1, h2⟩
      | appendEntries t ldr pli plt es lc =>
          simp only [RState.applyOp, processMessage]
          rw [handleAppendEntries]
          by_cases hterm : t < s.current_term
          · rw [if_pos hterm]
            exact ⟨h1, h2⟩
          · rw [if_neg hterm]
            simp only [okOp] at hok
            split_ifs with hgt
            · exact handleAppendEntriesRest_inv pli plt es lc h1 h2
                (fun hc => hok ⟨Nat.le_of_not_lt hterm, hc.1, hc.2⟩)
            · exact handleAppendEntriesRest_inv pli plt es lc h1 h2
                (fun hc => hok ⟨Nat.le_of_not_lt hterm, hc.1, hc.2⟩)
      | voteResponse t g =>
          have hf := handleVoteResponse_frame s t g
          simp only [RState.applyOp, processMessage]
          rw [hf.1, hf.2.1, hf.2.2]
          exact ⟨h1, h2⟩
      | appendResponse t su mi =>
          have hf := handleAppendResponse_frame s t su mi
          simp only [RState.applyOp, processMessage]
          rw [hf.1, hf.2.1, hf.2.2]
          exact ⟨h1, h2⟩
  | appendCmd c =>
      simp only [RState.applyOp, appendCommand]
      split_ifs
      · refine ⟨?_, h2⟩
        simp only [List.length_append, List.length_singleton]
        omega
      · exact ⟨h1, h2⟩
  | startElect =>
      simp only [RState.applyOp, startElection]
      exact ⟨h1, h2⟩
  | becomeLdr =>
      simp only [RState.applyOp, becomeLeader]
      exact ⟨h1, h2⟩
  | markApp n =>
      simp only [okOp] at hok
      simp only [RState.applyOp, markApplied]
      split_ifs with hgt
      · exact ⟨h1, hok⟩
      · exact ⟨h1, h2⟩

/-- C1 counterexample: `mark_applied(1)` on a fresh replica is a reachable
state with `last_applied = 1 > commit_index = 0`, because `mark_applied`
never clamps against `commit_index`. -/
theorem aresa_C1_cex :
    ReachableR "n1" [] 0 (RState.applyOp (RState.init "n1" [] 0) (ROp.markApp 1)) ∧
    ¬ ((RState.applyOp (RState.init "n1" [] 0) (ROp.markApp 1)).last_applied ≤
        (RState.applyOp (RState.init "n1" [] 0) (ROp.markApp 1)).commit_index) :=
  ⟨ReachableR.step (ROp.markApp 1) ReachableR.init, by decide⟩

/-- C1 (amended): `commit_index <= log length` and
`last_applied <= commit_index` hold in every state reachable by the public
operations provided every `mark_applied(up_to)` call satisfies
`up_to <= commit_index` at the time of the call and no `AppendEntries`
message with a current term reports a log conflict at a `prev_log_index`
at or below `commit_index` (such a conflict truncates committed entries). -/
theorem aresa_C1 (nid : String) (peers : List String) (now0 : Nat) (s : RState)
    (h : ReachableRGuarded nid peers now0 s) :
    s.commit_index ≤ s.log.length ∧ s.last_applied ≤ s.commit_index := by
  induction h with
  | init => exact ⟨Nat.le_refl _, Nat.le_refl _⟩
  | step op hprev hok ih => exact applyOp_inv op ih.1 ih.2 hok

theorem aresa_C1_witness :
    (RState.init "n1" [] 0).commit_index ≤ (RState.init "n1" [] 0).log.length ∧
    (RState.init "n1" [] 0).last_applied ≤ (RState.init "n1" [] 0).commit_index :=
  aresa_C1 "n1" [] 0 _ ReachableRGuarded.init

theorem appendPhase_cv (s : RState) (es : List LogEntry) (lc : Nat) :
    ((appendPhase s es lc).1).current_term = s.current_term ∧
    ((appendPhase s es lc).1).voted_for = s.voted_for := by
  rw [appendPhase]
  split_ifs <;> exact ⟨rfl, rfl⟩

theorem handleAppendEntriesRest_cv (s2 : RState) (pli plt : Nat) (es : List LogEntry)
    (lc : Nat) :
    ((handleAppendEntriesRest s2 pli plt es lc).1).current_term = s2.current_term ∧
    ((handleAppendEntriesRest s2 pli plt es lc).1).voted_for = s2.voted_for := by
  rw [handleAppendEntriesRest]
  by_cases hp : 0 < pli
  · rw [if_pos hp]
    cases hget : s2.log[pli - 1]? with
    | some entry =>
        simp only [hget]
        split_ifs with hne
        · exact ⟨rfl, rfl⟩
        · exact appendPhase_cv s2 es lc
    | none =>
        simp only [hget]
        simp
  · rw [if_neg hp]
    exact appendPhase_cv s2 es lc

theorem handleAppendEntries_cv (s : RState) (t : Nat) (ldr : String) (pli plt : Nat)
    (es : List LogEntry) (lc : Nat) (now : Nat) :
    ((handleAppendEntries s t ldr pli plt es lc now).1).current_term = max t s.current_term ∧
    ((¬ s.current_term < t ∧
        ((handleAppendEntries s t ldr pli plt es lc now).1).voted_for = s.voted_for) ∨
      (s.current_term < t ∧
        ((handleAppendEntries s t ldr pli plt es lc now).1).voted_for = none)) := by
  rw [handleAppendEntries]
  by_cases hterm : t < s.current_term
  · rw [if_pos hterm]
    exact ⟨by simp; omega, Or.inl ⟨by omega, rfl⟩⟩
  · rw [if_neg hterm]
    by_cases hgt : t > s.current_term
    · simp only [if_pos hgt]
      have hcv := handleAppendEntriesRest_cv
        { s with current_term := t, voted_for := none, state := .follower,
                 leader_id := some ldr, last_heartbeat := now } pli plt es lc
      constructor
      · rw [hcv.1]
        simp
        omega
      · exact Or.inr ⟨hgt, hcv.2⟩
    · simp only [if_neg hgt]
      have hcv := handleAppendEntriesRest_cv
        { s with state := .follower, leader_id := some ldr, last_heartbeat := now }
        pli plt es lc
      constructor
      · rw [hcv.1]
        simp
        omega
      · exact Or.inl ⟨hgt, hcv.2⟩

theorem handleVoteResponse_cv (s : RState) (t : Nat) (g : Bool) :
    (handleVoteResponse s t g).current_term = max t s.current_term ∧
    ((¬ s.current_term < t ∧ (handleVoteResponse s t g).voted_for = s.voted_for) ∨
      (s.current_term < t ∧ (handleVoteResponse s t g).voted_for = none)) := by
  rw [handleVoteResponse]
  split_ifs with h
  · exact ⟨by simp; omega, Or.inr ⟨h, rfl⟩⟩
  · exact ⟨by simp; omega, Or.inl ⟨h, rfl⟩⟩

theorem handleAppendResponse_cv (s : RState) (t : Nat) (su : Bool) (mi : Nat) :
    (handleAppendResponse s t su mi).current_term = max t s.current_term ∧
    ((¬ s.current_term < t ∧ (handleAppendResponse s t su mi).voted_for = s.voted_for) ∨
      (s.current_term < t ∧ (handleAppendResponse s t su mi).voted_for = none)) := by
  rw [handleAppendResponse]
  split_ifs with h
  · exact ⟨by simp; omega, Or.inr ⟨h, rfl⟩⟩
  · exact ⟨by simp; omega, Or.inl ⟨h, rfl⟩⟩

theorem handleRequestVote_enum (s : RState) (tm : Nat) (cand : String) (lli llt now : Nat) :
    ∃ granted : Bool,
      (handleRequestVote s tm cand lli llt now).2 =
        .voteResponse ((handleRequestVote s tm cand lli llt now).1).current_term granted ∧
      ((handleRequestVote s tm cand lli llt now).1).current_term = max tm s.current_term ∧
      (granted = true →
        tm = ((handleRequestVote s tm cand lli llt now).1).current_term ∧
        ((handleRequestVote s tm cand lli llt now).1).voted_for = some cand ∧
        (tm = s.current_term → s.voted_for = none ∨ s.voted_for = some cand)) ∧
      (granted = false →
        ((handleRequestVote s tm cand lli llt now).1).voted_for = s.voted_for ∨
        (s.current_term < tm ∧
          ((handleRequestVote s tm cand lli llt now).1).voted_for = none)) := by
  rw [handleRequestVote]
  by_cases hgt : tm > s.current_term
  · simp only [if_pos hgt]
    split_ifs with h2 h3 h4
    · exact ⟨false, rfl, by simp; omega, by simp, fun _ => Or.inr ⟨hgt, rfl⟩⟩
    · exact ⟨false, rfl, by simp; omega, by simp, fun _ => Or.inr ⟨hgt, rfl⟩⟩
    · refine ⟨true, rfl, by simp; omega, fun _ => ⟨by simp, rfl, ?_⟩, by simp⟩
      intro heq
      exact absurd heq (by omega)
    · exact ⟨false, rfl, by simp; omega, by simp, fun _ => Or.inr ⟨hgt, rfl⟩⟩
  · simp only [if_neg hgt]
    split_ifs with h2 h3 h4
    · exact ⟨false, rfl, by simp; omega, by simp, fun _ => Or.inl rfl⟩
    · exact ⟨false, rfl, by simp; omega, by simp, fun _ => Or.inl rfl⟩
    · refine ⟨true, rfl, by simp; omega, fun _ => ⟨by simp; omega, rfl, ?_⟩, by simp⟩
      intro _
      rcases hv : s.voted_for with _ | v
      · exact Or.inl rfl
      · right
        rw [hv] at h3
        simp at h3
        rw [h3]
    · exact ⟨false, rfl, by simp; omega, by simp, fun _ => Or.inl rfl⟩

theorem processMessage_P {s : RState} {t : Nat} {c : String} (m : ConsensusMessage) (now : Nat)
    (h1 : t ≤ s.current_term) (h2 : t = s.current_term → s.voted_for = some c) :
    t ≤ ((processMessage s m now).1).current_term ∧
    (t = ((processMessage s m now).1).current_term →
      ((processMessage s m now).1).voted_for = some c) := by
  cases m with
  | requestVote tm cand lli llt =>
      obtain ⟨g, hresp, hcur, hgt, hgf⟩ := handleRequestVote_enum s tm cand lli llt now
      simp only [processMessage]
      constructor
      · rw [hcur]
        omega
      · intro hteq
        rw [hcur] at hteq
        by_cases htm : s.current_term < tm
        · exfalso
          omega
        · have hts : t = s.current_term := by omega
          cases g with
          | false =>
              rcases hgf rfl with hsame | ⟨hlt, _⟩
              · rw [hsame]
                exact h2 hts
              · exact absurd hlt htm
          | true =>
              obtain ⟨htm', hvoted, hprev⟩ := hgt rfl
              have htms : tm = s.current_term := by
                rw [hcur] at htm'
                omega
              rcases hprev htms with hnone | hcand
              · have hc := h2 hts
                rw [hc] at hnone
                cases hnone
              · have hcc : some cand = some c := by
                  rw [← hcand]
                  exact h2 hts
                rw [hvoted]
                exact hcc
  | appendEntries tm ldr pli plt es lc =>
      have hcv := handleAppendEntries_cv s tm ldr pli plt es lc now
      simp only [processMessage]
      constructor
      · rw [hcv.1]
        omega
      · intro hteq
        rw [hcv.1] at hteq
        rcases hcv.2 with ⟨hle, hsame⟩ | ⟨hlt, _⟩
        · rw [hsame]
          exact h2 (by omega)
        · exfalso
          omega
  | voteResponse tm g =>
      have hcv := handleVoteResponse_cv s tm g
      simp only [processMessage]
      constructor
      · rw [hcv.1]
        omega
      · intro hteq
        rw [hcv.1] at hteq
        rcases hcv.2 with ⟨hle, hsame⟩ | ⟨hlt, _⟩
        · rw [hsame]
          exact h2 (by omega)
        · exfalso
          omega
  | appendResponse tm su mi =>
      have hcv := handleAppendResponse_cv s tm su mi
      simp only [processMessage]
      constructor
      · rw [hcv.1]
        omega
      · intro hteq
        rw [hcv.1] at hteq
        rcases hcv.2 with ⟨hle, hsame⟩ | ⟨hlt, _⟩
        · rw [hsame]
          exact h2 (by omega)
        · exfalso
          omega

theorem runGrants_cons (s : RState) (m : ConsensusMessage) (now : Nat)
    (rest : List (ConsensusMessage × Nat)) :
    runGrants s ((m, now) :: rest) =
      (match m with
       | .requestVote _ cand _ _ =>
          (match (processMessage s m now).2 with
           | some (.voteResponse t true) => [(t, cand)]
           | _ => [])
       | _ => []) ++ runGrants ((processMessage s m now).1) rest := rfl

theorem processMessage_rv_snd (s : RState) (tm : Nat) (cand : String) (lli llt now : Nat) :
    (processMessage s (.requestVote tm cand lli llt) now).2 =
      some (handleRequestVote s tm cand lli llt now).2 := rfl

theorem runGrants_bound {t : Nat} {c : String} :
    ∀ (msgs : List (ConsensusMessage × Nat)) (s : RState),
      t ≤ s.current_term → (t = s.current_term → s.voted_for = some c) →
      ∀ p ∈ runGrants s msgs, p.1 = t → p.2 = c := by
  intro msgs
  induction msgs with
  | nil =>
      intro s _ _ p hp
      simp [runGrants] at hp
  | cons q rest ih =>
      obtain ⟨m, now⟩ := q
      intro s h1 h2 p hp hpt
      have hP := processMessage_P m now h1 h2
      rw [runGrants_cons] at hp
      rcases List.mem_append.mp hp with hph | hpr
      · cases m with
        | requestVote tm cand lli llt =>
            obtain ⟨g, hresp, hcur, hgt, hgf⟩ := handleRequestVote_enum s tm cand lli llt now
            rw [processMessage_rv_snd, hresp] at hph
            cases g with
            | false => simp at hph
            | true =>
                simp only [List.mem_singleton] at hph
                subst hph
                simp only at hpt
                obtain ⟨htm', hvoted, hprev⟩ := hgt rfl
                by_cases htm : s.current_term < tm
                · exfalso
                  rw [hcur] at hpt
                  omega
                · have hts : t = s.current_term := by
                    rw [hcur] at hpt
                    omega
                  have htms : tm = s.current_term := by
                    rw [hcur] at htm'
                    omega
                  rcases hprev htms with hnone | hcand
                  · rw [h2 hts] at hnone
                    cases hnone
                  · have hcc := h2 hts
                    rw [hcand] at hcc
                    simp only [Option.some.injEq] at hcc
                    simpa using hcc
        | appendEntries tm ldr pli plt es lc => simp at hph
        | voteResponse tm g => simp at hph
        | appendResponse tm su mi => simp at hph
      · exact ih _ hP.1 hP.2 p hpr hpt

theorem runGrants_pairwise :
    ∀ (msgs : List (ConsensusMessage × Nat)) (s : RState),
      List.Pairwise (fun a b => a.1 = b.1 → a.2 = b.2) (runGrants s msgs) := by
  intro msgs
  induction msgs with
  | nil =>
      intro s
      simp [runGrants]
  | cons q rest ih =>
      obtain ⟨m, now⟩ := q
      intro s
      rw [runGrants_cons]
      cases m with
      | requestVote tm cand lli llt =>
          obtain ⟨g, hresp, hcur, hgt, hgf⟩ := handleRequestVote_enum s tm cand lli llt now
          rw [processMessage_rv_snd, hresp]
          cases g with
          | false => simpa using ih _
          | true =>
              simp only [List.singleton_append]
              refine List.Pairwise.cons ?_ (ih _)
              intro b hb hab
              obtain ⟨htm', hvoted, hprev⟩ := hgt rfl
              have hbc := runGrants_bound rest
                ((processMessage s (.requestVote tm cand lli llt) now).1)
                (Nat.le_refl _) (fun _ => hvoted) b hb
              exact (hbc hab.symm).symm
      | appendEntries tm ldr pli plt es lc => simpa using ih _
      | voteResponse tm g => simpa using ih _
      | appendResponse tm su mi => simpa using ih _

theorem processMessage_term_mono (s : RState) (m : ConsensusMessage) (now : Nat) :
    s.current_term ≤ ((processMessage s m now).1).current_term := by
  cases m with
  | requestVote tm cand lli llt =>
      obtain ⟨g, _, hcur, _, _⟩ := handleRequestVote_enum s tm cand lli llt now
      simp only [processMessage]
      rw [hcur]
      omega
  | appendEntries tm ldr pli plt es lc =>
      have hcv := handleAppendEntries_cv s tm ldr pli plt es lc now
      simp only [processMessage]
      rw [hcv.1]
      omega
  | voteResponse tm g =>
      have hcv := handleVoteResponse_cv s tm g
      simp only [processMessage]
      rw [hcv.1]
      omega
  | appendResponse tm su mi =>
      have hcv := handleAppendResponse_cv s tm su mi
      simp only [processMessage]
      rw [hcv.1]
      omega

theorem runStates_chain :
    ∀ (msgs : List (ConsensusMessage × Nat)) (s : RState),
      List.Chain' (fun a b => a.current_term ≤ b.current_term) (runStates s msgs) := by
  intro msgs
  induction msgs with
  | nil =>
      intro s
      simp [runStates]
  | cons q rest ih =>
      obtain ⟨m, now⟩ := q
      intro s
      have hstep : runStates s ((m, now) :: rest) =
          s :: runStates ((processMessage s m now).1) rest := rfl
      rw [hstep, List.chain'_cons']
      refine ⟨?_, ih _⟩
      intro h2 hh
      have hhead : (runStates ((processMessage s m now).1) rest).head? =
          some ((processMessage s m now).1) := by
        cases rest <;> rfl
      rw [hhead, Option.mem_def, Option.some.injEq] at hh
      subst hh
      exact processMessage_term_mono s m now

/-- C4: along any finite trace of `RequestVote` and `AppendEntries` messages
delivered through `process_message`, the `current_term` of the replica never
decreases from one state to the next, and among all granted votes, any two
grants carrying the same term went to the same candidate. -/
theorem aresa_C4 (s : RState) (msgs : List (ConsensusMessage × Nat))
    (hmsgs : ∀ p ∈ msgs, isElection p.1 = true) :
    List.Chain' (fun a b => a.current_term ≤ b.current_term) (runStates s msgs) ∧
    List.Pairwise (fun a b => a.1 = b.1 → a.2 = b.2) (runGrants s msgs) :=
  ⟨runStates_chain msgs s, runGrants_pairwise msgs s⟩

theorem aresa_C4_witness :
    (∀ p ∈ [((ConsensusMessage.requestVote 1 "a" 0 0 : ConsensusMessage), (0 : Nat)),
            (ConsensusMessage.appendEntries 2 "a" 0 0 [] 0, 0)],
      isElection p.1 = true) ∧
    (List.Chain' (fun a b => a.current_term ≤ b.current_term)
      (runStates (RState.init "n1" [] 0)
        [(ConsensusMessage.requestVote 1 "a" 0 0, 0),
         (ConsensusMessage.appendEntries 2 "a" 0 0 [] 0, 0)]) ∧
     List.Pairwise (fun a b => a.1 = b.1 → a.2 = b.2)
      (runGrants (RState.init "n1" [] 0)
        [(ConsensusMessage.requestVote 1 "a" 0 0, 0),
         (ConsensusMessage.appendEntries 2 "a" 0 0 [] 0, 0)])) :=
  ⟨by decide,
   aresa_C4 (RState.init "n1" [] 0)
     [(ConsensusMessage.requestVote 1 "a" 0 0, 0),
      (ConsensusMessage.appendEntries 2 "a" 0 0 [] 0, 0)] (by decide)⟩

theorem mem_ringInsert {k v : Nat} {q : Nat × Nat} :
    ∀ {r : List (Nat × Nat)}, q ∈ ringInsert r k v → q ∈ r ∨ q = (k, v) := by
  intro r
  induction r with
  | nil =>
      intro h
      simp [ringInsert] at h
      exact Or.inr h
  | cons p rest ih =>
      obtain ⟨k', v'⟩ := p
      intro h
      rw [ringInsert] at h
      split_ifs at h with h1 h2
      · rcases List.mem_cons.mp h with rfl | hm
        · exact Or.inr rfl
        · exact Or.inl hm
      · rcases List.mem_cons.mp h with rfl | hm
        · exact Or.inr rfl
        · exact Or.inl (List.mem_cons_of_mem _ hm)
      · rcases List.mem_cons.mp h with rfl | hm
        · exact Or.inl (List.mem_cons_self _ _)
        · rcases ih hm with h3 | h3
          · exact Or.inl (List.mem_cons_of_mem _ h3)
          · exact Or.inr h3

theorem ringInsert_sorted (k v : Nat) :
    ∀ {r : List (Nat × Nat)}, RingSorted r → RingSorted (ringInsert r k v) := by
  intro r
  induction r with
  | nil =>
      intro _
      simp [ringInsert, RingSorted]
  | cons p rest ih =>
      obtain ⟨k', v'⟩ := p
      intro hs
      obtain ⟨hp, hrest⟩ := List.pairwise_cons.mp hs
      rw [ringInsert]
      split_ifs with h1 h2
      · refine List.pairwise_cons.mpr ⟨?_, List.pairwise_cons.mpr ⟨hp, hrest⟩⟩
        intro q hq
        rcases List.mem_cons.mp hq with rfl | hm
        · exact h1
        · exact Nat.lt_trans h1 (hp q hm)
      · refine List.pairwise_cons.mpr ⟨?_, hrest⟩
        intro q hq
        rw [h2]
        exact hp q hq
      · refine List.pairwise_cons.mpr ⟨?_, ih hrest⟩
        intro q hq
        rcases mem_ringInsert hq with hm | rfl
        · exact hp q hm
        · simp only
          omega

theorem ringFind_ringInsert_self (r : List (Nat × Nat)) (k v : Nat) :
    ringFind (ringInsert r k v) k = some v := by
  induction r with
  | nil => simp [ringInsert, ringFind, List.find?]
  | cons p rest ih =>
      obtain ⟨k', v'⟩ := p
      rw [ringInsert]
      split_ifs with h1 h2
      · simp [ringFind, List.find?]
      · simp [ringFind, List.find?]
      · have hne : (k' == k) = false := by
          simp only [beq_eq_false_iff_ne, ne_eq]
          omega
        simp only [ringFind, List.find?, hne] at ih ⊢
        exact ih

theorem ringFind_ringInsert_ne (r : List (Nat × Nat)) (kIns v kQ : Nat) (hne : kQ ≠ kIns) :
    ringFind (ringInsert r kIns v) kQ = ringFind r kQ := by
  have hbeq : (kIns == kQ) = false := by
    simp only [beq_eq_false_iff_ne, ne_eq]
    omega
  induction r with
  | nil => simp [ringInsert, ringFind, List.find?, hbeq]
  | cons p rest ih =>
      obtain ⟨k', v'⟩ := p
      rw [ringInsert]
      split_ifs with h1 h2
      · simp only [ringFind, List.find?, hbeq]
      · subst h2
        simp only [ringFind, List.find?, hbeq]
      · cases hk' : (k' == kQ) with
        | true =>
            simp only [ringFind, List.find?, hk']
        | false =>
            simp only [ringFind, List.find?, hk'] at ih ⊢
            exact ih

theorem ringLookupGE_some {h : Nat} :
    ∀ {r : List (Nat × Nat)} {p : Nat × Nat}, RingSorted r → ringLookupGE r h = some p →
      p ∈ r ∧ h ≤ p.1 ∧ ∀ q ∈ r, h ≤ q.1 → p.1 ≤ q.1 := by
  intro r
  induction r with
  | nil =>
      intro p _ hp
      rw [ringLookupGE] at hp
      cases hp
  | cons a rest ih =>
      obtain ⟨k, v⟩ := a
      intro p hs hp
      obtain ⟨hhead, hrest⟩ := List.pairwise_cons.mp hs
      rw [ringLookupGE] at hp
      split_ifs at hp with hk
      · injection hp with hp
        subst hp
        refine ⟨List.mem_cons_self _ _, hk, ?_⟩
        intro q hq _
        rcases List.mem_cons.mp hq with rfl | hm
        · exact Nat.le_refl _
        · exact Nat.le_of_lt (hhead q hm)
      · obtain ⟨hmem, hle, hmin⟩ := ih hrest hp
        refine ⟨List.mem_cons_of_mem _ hmem, hle, ?_⟩
        intro q hq hq2
        rcases List.mem_cons.mp hq with rfl | hm
        · exact absurd hq2 hk
        · exact hmin q hm hq2

theorem ringLookupGE_none {h : Nat} :
    ∀ {r : List (Nat × Nat)}, ringLookupGE r h = none → ∀ q ∈ r, q.1 < h := by
  intro r
  induction r with
  | nil =>
      intro _ q hq
      simp at hq
  | cons a rest ih =>
      obtain ⟨k, v⟩ := a
      intro hp q hq
      rw [ringLookupGE] at hp
      split_ifs at hp with hk
      rcases List.mem_cons.mp hq with rfl | hm
      · simp only
        omega
      · exact ih hp q hm

theorem sorted_head_min {k v : Nat} {rest : List (Nat × Nat)}
    (hs : RingSorted ((k, v) :: rest)) : ∀ q ∈ (k, v) :: rest, k ≤ q.1 := by
  intro q hq
  obtain ⟨hhead, _⟩ := List.pairwise_cons.mp hs
  rcases List.mem_cons.mp hq with rfl | hm
  · exact Nat.le_refl _
  · exact Nat.le_of_lt (hhead q hm)

theorem foldlInsert_sorted (ks : List Nat) (id : Nat) :
    ∀ {r : List (Nat × Nat)}, RingSorted r →
      RingSorted (ks.foldl (fun r' k' => ringInsert r' k' id) r) := by
  induction ks with
  | nil =>
      intro r hs
      exact hs
  | cons k0 rest ih =>
      intro r hs
      rw [List.foldl_cons]
      exact ih (ringInsert_sorted k0 id hs)

theorem foldlInsert_find (ks : List Nat) (id : Nat) :
    ∀ (r : List (Nat × Nat)) (k : Nat), (k ∈ ks ∨ ringFind r k = some id) →
      ringFind (ks.foldl (fun r' k' => ringInsert r' k' id) r) k = some id := by
  induction ks with
  | nil =>
      intro r k h
      rcases h with h | h
      · simp at h
      · simpa using h
  | cons k0 rest ih =>
      intro r k h
      rw [List.foldl_cons]
      apply ih
      by_cases hk : k ∈ rest
      · exact Or.inl hk
      · right
        rcases h with hmem | hfind
        · rcases List.mem_cons.mp hmem with rfl | hmm
          · exact ringFind_ringInsert_self r k id
          · exact absurd hmm hk
        · by_cases heq : k = k0
          · subst heq
            exact ringFind_ringInsert_self r k id
          · rw [ringFind_ringInsert_ne r k0 id k heq]
            exact hfind

theorem addNode_eq_foldl (hash : List Nat → Nat) (vn : Nat) (ring : List (Nat × Nat))
    (id : Nat) :
    addNode hash vn ring id =
      ((List.range vn).map (fun i => hash (strBytes (virtualKey id i)))).foldl
        (fun r' k' => ringInsert r' k' id) ring := by
  rw [addNode, List.foldl_map]

theorem addNode_sorted (hash : List Nat → Nat) (vn : Nat) {ring : List (Nat × Nat)}
    (id : Nat) (hs : RingSorted ring) : RingSorted (addNode hash vn ring id) := by
  rw [addNode_eq_foldl]
  exact foldlInsert_sorted _ id hs

theorem ringGetNode_eq_some {hash : List Nat → Nat} {ring : List (Nat × Nat)}
    {key : List Nat} {p : Nat × Nat} (hne : ring ≠ [])
    (hlook : ringLookupGE ring (hash key) = some p) :
    ringGetNode hash ring key = p.2 := by
  cases ring with
  | nil => exact absurd rfl hne
  | cons a tail =>
      obtain ⟨k0, v0⟩ := a
      simp only [ringGetNode, hlook]

theorem ringGetNode_eq_head {hash : List Nat → Nat} {ring : List (Nat × Nat)}
    {key : List Nat} {k0 v0 : Nat} {tail : List (Nat × Nat)}
    (hR : ring = (k0, v0) :: tail)
    (hlook : ringLookupGE ring (hash key) = none) :
    ringGetNode hash ring key = v0 := by
  subst hR
  simp only [ringGetNode, hlook]

/-- C2 (amended): adding shard `id` to the ring registers `virtual_nodes`
positions, one at `hash("node_{id}_{i}")` for each `i in 0..virtual_nodes`
(the key format in the code, not the claimed `"shard_{id}_{i}"`), each
storing `id`; and for every key, `get_node` returns the shard id stored at
the first ring position at or after `hash(key)`, wrapping to the smallest
position when every position is below `hash(key)`. -/
theorem aresa_C2 (hash : List Nat → Nat) (vn : Nat) (ring : List (Nat × Nat)) (id : Nat)
    (hs : RingSorted ring) :
    (∀ i, i < vn →
      ringFind (addNode hash vn ring id) (hash (strBytes (virtualKey id i))) = some id) ∧
    (∀ key, addNode hash vn ring id ≠ [] →
      ((∃ p ∈ addNode hash vn ring id, hash key ≤ p.1) →
        ∃ k, (k, ringGetNode hash (addNode hash vn ring id) key) ∈ addNode hash vn ring id ∧
          hash key ≤ k ∧
          ∀ q ∈ addNode hash vn ring id, hash key ≤ q.1 → k ≤ q.1) ∧
      ((∀ q ∈ addNode hash vn ring id, q.1 < hash key) →
        ∃ k0, (k0, ringGetNode hash (addNode hash vn ring id) key) ∈
            addNode hash vn ring id ∧
          ∀ q ∈ addNode hash vn ring id, k0 ≤ q.1)) := by
  have hsort := addNode_sorted hash vn id hs
  constructor
  · intro i hi
    rw [addNode_eq_foldl]
    exact foldlInsert_find _ id ring _
      (Or.inl (List.mem_map_of_mem _ (List.mem_range.mpr hi)))
  · intro key hne
    constructor
    · rintro ⟨p0, hp0, hp0le⟩
      cases hlook : ringLookupGE (addNode hash vn ring id) (hash key) with
      | some p =>
          obtain ⟨hmem, hle, hmin⟩ := ringLookupGE_some hsort hlook
          rw [ringGetNode_eq_some hne hlook]
          exact ⟨p.1, hmem, hle, hmin⟩
      | none =>
          have hall := ringLookupGE_none hlook
          exact absurd hp0le (Nat.not_le.mpr (hall p0 hp0))
    · intro hall
      cases hR : addNode hash vn ring id with
      | nil => exact absurd hR hne
      | cons a tail =>
          obtain ⟨k0, v0⟩ := a
          cases hlook : ringLookupGE (addNode hash vn ring id) (hash key) with
          | some p =>
              obtain ⟨hmem, hle, _⟩ := ringLookupGE_some hsort hlook
              exact absurd hle (Nat.not_le.mpr (hall p hmem))
          | none =>
              rw [hR] at hlook
              rw [ringGetNode_eq_head rfl hlook]
              refine ⟨k0, List.mem_cons_self _ _, ?_⟩
              intro q hq
              exact sorted_head_min (hR ▸ hsort) q hq

/-- C2 counterexample: with one virtual node per shard the code registers
the ring position at the hash of the bytes of `"node_0_0"`, not of
`"shard_0_0"` as the claim states; taking the byte-length function as the
hash, the position for `"shard_0_0"` does not exist on the ring while the
one for `"node_0_0"` does. -/
theorem aresa_C2_cex :
    ringFind (addNode (fun l => l.length) 1 [] 0)
      ((strBytes "shard_0_0").length) = none ∧
    ringFind (addNode (fun l => l.length) 1 [] 0)
      ((strBytes (virtualKey 0 0)).length) = some 0 := by
  constructor
  · rfl
  · rfl

theorem aresa_C2_witness :
    RingSorted ([] : List (Nat × Nat)) ∧
    ((∀ i, i < 1 →
        ringFind (addNode (fun l => l.length) 1 [] 0)
          ((strBytes (virtualKey 0 i)).length) = some 0) ∧
      (∀ key : List Nat, addNode (fun l => l.length) 1 [] 0 ≠ [] →
        ((∃ p ∈ addNode (fun l => l.length) 1 [] 0, key.length ≤ p.1) →
          ∃ k, (k, ringGetNode (fun l => l.length) (addNode (fun l => l.length) 1 [] 0) key) ∈
                addNode (fun l => l.length) 1 [] 0 ∧
            key.length ≤ k ∧
            ∀ q ∈ addNode (fun l => l.length) 1 [] 0, key.length ≤ q.1 → k ≤ q.1) ∧
        ((∀ q ∈ addNode (fun l => l.length) 1 [] 0, q.1 < key.length) →
          ∃ k0, (k0, ringGetNode (fun l => l.length) (addNode (fun l => l.length) 1 [] 0) key) ∈
                addNode (fun l => l.length) 1 [] 0 ∧
            ∀ q ∈ addNode (fun l => l.length) 1 [] 0, k0 ≤ q.1))) :=
  ⟨by simp [RingSorted], aresa_C2 (fun l => l.length) 1 [] 0 (by simp [RingSorted])⟩

theorem entryFromBytes_nil (deser : List Nat → Option WalEntry) :
    entryFromBytes deser [] = none := by
  rw [entryFromBytes]
  simp

theorem aresa_C6_witness :
    (∀ e ∈ [walSampleE1], tableDeser [walSampleE1] (serSimple e) = some e) ∧
    (∀ e ∈ [walSampleE1], (serSimple e).length < 2 ^ 32) ∧
    entryFromBytes (tableDeser [walSampleE1]) walJunk = none ∧
    readAll (tableDeser [walSampleE1])
      (([walSampleE1].map (entryToBytes serSimple)).flatten ++ walJunk) = [walSampleE1] :=
  ⟨by decide, by decide, by decide,
    aresa_C6 serSimple (tableDeser [walSampleE1]) [walSampleE1] walJunk
      (by decide) (by decide) (by decide)⟩

theorem walAppendAll_cons (ser : WalEntry → List Nat) (s : WalState) (t : WalEntryType)
    (ts : Nat) (d : List Nat) (rest : List (WalEntryType × Nat × List Nat)) :
    walAppendAll ser s ((t, ts, d) :: rest) =
      ((walAppendAll ser (walAppend ser s t ts d).1 rest).1,
        (walAppend ser s t ts d).2 ::
          (walAppendAll ser (walAppend ser s t ts d).1 rest).2) := rfl

theorem walAppendAll_spec (ser : WalEntry → List Nat) :
    ∀ (specs : List (WalEntryType × Nat × List Nat)) (B : List Nat) (L : Nat),
      (walAppendAll ser ⟨B, L⟩ specs).1.fileBytes =
        B ++ ((walEntriesFrom L specs).map (entryToBytes ser)).flatten ∧
      (walAppendAll ser ⟨B, L⟩ specs).1.nextLsn = L + specs.length ∧
      (walAppendAll ser ⟨B, L⟩ specs).2 = List.range' L specs.length := by
  intro specs
  induction specs with
  | nil =>
      intro B L
      exact ⟨by simp [walAppendAll, walEntriesFrom], by simp [walAppendAll], rfl⟩
  | cons spec rest ih =>
      obtain ⟨t, ts, d⟩ := spec
      intro B L
      have hstep : (walAppend ser ⟨B, L⟩ t ts d).1 =
          (⟨B ++ entryToBytes ser
              { lsn := L, timestamp := ts, entry_type := t, tx_id := none, data := d },
            L + 1⟩ : WalState) := rfl
      obtain ⟨ihb, ihn, ihl⟩ := ih
        (B ++ entryToBytes ser
          { lsn := L, timestamp := ts, entry_type := t, tx_id := none, data := d }) (L + 1)
      rw [walAppendAll_cons, hstep]
      refine ⟨?_, ?_, ?_⟩
      · rw [ihb, walEntriesFrom]
        simp [List.append_assoc]
      · rw [ihn]
        simp only [List.length_cons]
        omega
      · rw [ihl]
        have hr : List.range' L (rest.length + 1) = L :: List.range' (L + 1) rest.length :=
          List.range'_succ L rest.length 1
        rw [List.length_cons, hr]
        rfl

theorem walEntriesFrom_map_lsn :
    ∀ (specs : List (WalEntryType × Nat × List Nat)) (L : Nat),
      (walEntriesFrom L specs).map WalEntry.lsn = List.range' L specs.length := by
  intro specs
  induction specs with
  | nil => intro L; rfl
  | cons spec rest ih =>
      obtain ⟨t, ts, d⟩ := spec
      intro L
      rw [walEntriesFrom, List.map_cons, ih, List.length_cons,
        List.range'_succ L rest.length 1]

theorem range'_getLast_getD :
    ∀ (n L : Nat), ((List.range' L (n + 1)).getLast?).getD 0 = L + n := by
  intro n
  induction n with
  | zero => intro L; rfl
  | succ n ihn =>
      intro L
      have h1 : List.range' L (n + 1 + 1) = L :: List.range' (L + 1) (n + 1) :=
        List.range'_succ L (n + 1) 1
      have h2 : List.range' (L + 1) (n + 1) = (L + 1) :: List.range' (L + 1 + 1) n :=
        List.range'_succ (L + 1) n 1
      rw [h1, h2, List.getLast?_cons_cons, ← h2, ihn (L + 1)]
      omega

/-- C7: appending entries to a fresh WAL, then reopening the file, replays
exactly the appended entries in order; the appends were assigned LSNs
`1..n`; recovery sets the counter from the last recovered LSN, so the next
append after reopening is assigned LSN `n + 1`. -/
theorem aresa_C7 (ser : WalEntry → List Nat) (deser : List Nat → Option WalEntry)
    (specs : List (WalEntryType × Nat × List Nat))
    (hcodec : ∀ e ∈ walEntriesFrom 1 specs, deser (ser e) = some e)
    (hlen : ∀ e ∈ walEntriesFrom 1 specs, (ser e).length < 2 ^ 32) :
    readAll deser (walAppendAll ser (walOpen deser []) specs).1.fileBytes =
      walEntriesFrom 1 specs ∧
    (walAppendAll ser (walOpen deser []) specs).2 = List.range' 1 specs.length ∧
    (walOpen deser (walAppendAll ser (walOpen deser []) specs).1.fileBytes).nextLsn =
      specs.length + 1 ∧
    (∀ t ts d, (walAppend ser
        (walOpen deser (walAppendAll ser (walOpen deser []) specs).1.fileBytes) t ts d).2 =
      specs.length + 1) := by
  have hopen : walOpen deser [] = ⟨[], 1⟩ := by
    rw [walOpen, findLastLsn, readAll_none (entryFromBytes_nil deser)]
    rfl
  rw [hopen]
  obtain ⟨hbytes, hnext, hlsns⟩ := walAppendAll_spec ser specs [] 1
  have hread : readAll deser (walAppendAll ser ⟨[], 1⟩ specs).1.fileBytes =
      walEntriesFrom 1 specs := by
    rw [hbytes]
    have hb := @readAll_blocks ser deser (walEntriesFrom 1 specs) [] hcodec hlen
      (entryFromBytes_nil deser)
    simpa using hb
  have hnext2 : (walOpen deser
      (walAppendAll ser ⟨[], 1⟩ specs).1.fileBytes).nextLsn = specs.length + 1 := by
    rw [walOpen]
    simp only
    rw [findLastLsn, hread, walEntriesFrom_map_lsn]
    cases hn : specs.length with
    | zero => rfl
    | succ n =>
        rw [range'_getLast_getD n 1]
        omega
  exact ⟨hread, hlsns, hnext2, fun t ts d => hnext2⟩

theorem aresa_C7_witness :
    (∀ e ∈ walEntriesFrom 1 walSampleSpecs, walSampleDeser (serSimple e) = some e) ∧
    (∀ e ∈ walEntriesFrom 1 walSampleSpecs, (serSimple e).length < 2 ^ 32) ∧
    (readAll walSampleDeser
        (walAppendAll serSimple (walOpen walSampleDeser []) walSampleSpecs).1.fileBytes =
      walEntriesFrom 1 walSampleSpecs ∧
    (walAppendAll serSimple (walOpen walSampleDeser []) walSampleSpecs).2 =
      List.range' 1 walSampleSpecs.length ∧
    (walOpen walSampleDeser
        (walAppendAll serSimple (walOpen walSampleDeser []) walSampleSpecs).1.fileBytes).nextLsn =
      walSampleSpecs.length + 1 ∧
    (∀ t ts d, (walAppend serSimple
        (walOpen walSampleDeser
          (walAppendAll serSimple (walOpen walSampleDeser []) walSampleSpecs).1.fileBytes)
        t ts d).2 = walSampleSpecs.length + 1)) :=
  ⟨by decide, by decide,
    aresa_C7 serSimple walSampleDeser walSampleSpecs (by decide) (by decide)⟩

end Aresa
